import Mathlib

/-!
Verification of the csv-kit library (TypeScript): a shallow embedding of
its parser (`src/parse.ts`), generator (`src/generate.ts`) and shared
utilities (`src/utils.ts`: `countOutsideQuotes`, `detectDelimiter`,
`splitLines`, `splitFields`, `escapeField`), together with proofs about
the embedded definitions.

Strings are modelled as `List Char` (sequences of code units); JavaScript
objects holding rows are modelled as association lists with
first-occurrence key semantics.  All definitions are executable and
structurally recursive so that concrete runs reduce by `decide`/`rfl`.
-/

namespace Csv

/-- A string: a list of characters. -/
abbrev Str := List Char

/-- A row in headered mode: a JavaScript object modelled as an ordered
association list from key to value (keys distinct in any list that
models an actual JS object). -/
abbrev Row := List (Str × Str)

/-- `const DELIMITERS = [",", ";", "\t", "|"]` from utils.ts. -/
def DELIMITERS : List Char := [',', ';', '\t', '|']

/-- The characters that JavaScript `String.prototype.trim` strips
(ECMAScript WhiteSpace and LineTerminator code points). -/
def jsWhitespace (c : Char) : Bool :=
  c ∈ ['\t', '\n', '\x0B', '\x0C', '\r', ' ', ' ', ' ',
       ' ', ' ', ' ', ' ', ' ', ' ',
       ' ', ' ', ' ', ' ', ' ',
       ' ', ' ', ' ', ' ', '　', '﻿']

/-- JavaScript `value.trim()`: whitespace is removed from both ends. -/
def trimJS (s : Str) : Str :=
  ((s.dropWhile jsWhitespace).reverse.dropWhile jsWhitespace).reverse

/-- `trim ? value.trim() : value`. -/
def applyTrim (doTrim : Bool) (s : Str) : Str :=
  if doTrim then trimJS s else s

/-- parse.ts line 32: `csv.charCodeAt(0) === 0xfeff ? csv.slice(1) : csv`. -/
def stripBOM : Str → Str
  | [] => []
  | c :: rest => if c = '﻿' then rest else c :: rest

/-- parse.ts line 33:
`input.replace(/\r\n/g, "\n").replace(/\r/g, "\n")` — every CRLF pair
and every remaining lone CR becomes LF (single left-to-right pass,
equivalent to the two sequential global replaces). -/
def normalizeNewlines : Str → Str
  | [] => []
  | '\r' :: '\n' :: rest => '\n' :: normalizeNewlines rest
  | '\r' :: rest => '\n' :: normalizeNewlines rest
  | c :: rest => c :: normalizeNewlines rest

/-! ### utils.ts: countOutsideQuotes -/

/-- The scanning loop of `countOutsideQuotes`: `inQuotes` toggles on every
double quote; a delimiter character is counted only outside quotes. -/
def countOutsideQuotesAux (delim : Char) : Str → Bool → Nat
  | [], _ => 0
  | c :: rest, inQuotes =>
    if c = '"' then countOutsideQuotesAux delim rest (!inQuotes)
    else if !inQuotes && c = delim then
      countOutsideQuotesAux delim rest inQuotes + 1
    else countOutsideQuotesAux delim rest inQuotes

/-- utils.ts `countOutsideQuotes(line, delimiter)`. -/
def countOutsideQuotes (line : Str) (delim : Char) : Nat :=
  countOutsideQuotesAux delim line false

/-! ### utils.ts: detectDelimiter -/

/-- Insert into an ascending list (used to model the JS numeric sort). -/
def insertSorted (x : Nat) : List Nat → List Nat
  | [] => [x]
  | y :: ys => if x ≤ y then x :: y :: ys else y :: insertSorted x ys

/-- Ascending numeric sort, modelling `nonZero.sort((a, b) => a - b)`
(the sorted result of a list of naturals is unique, so any correct sort
models the JS one). -/
def sortAsc (l : List Nat) : List Nat := l.foldr insertSorted []

/-- The body of the `detectDelimiter` candidate loop: `none` models the
`continue` for a disqualified candidate, otherwise the score
`consistent * 1000 + nonZero.length` (as an integer, to compare with the
initial best score `-1`). -/
def scoreOf (lines : List Str) (d : Char) : Option Int :=
  let counts := lines.map (fun l => countOutsideQuotes l d)
  let nonZero := counts.filter (fun c => 0 < c)
  if nonZero.length = 0 then none
  else
    let sorted := sortAsc nonZero
    let mode := sorted.getD (nonZero.length / 2) 0
    let consistent := (counts.filter (fun c => c = mode)).length
    some ((consistent * 1000 + nonZero.length : Nat) : Int)

/-- The candidate fold of `detectDelimiter`: starting from
`bestDelimiter = ","`, `bestScore = -1`, a candidate replaces the best
only when its score is strictly greater. -/
def bestFold (f : Char → Option Int) (l : List Char) (init : Char × Int) :
    Char × Int :=
  l.foldl (fun best d =>
    match f d with
    | none => best
    | some s => if best.2 < s then (d, s) else best) init

/-- utils.ts `detectDelimiter(lines)`. -/
def detectDelimiter (lines : List Str) : Char :=
  if lines = [] then ','
  else (bestFold (scoreOf lines) DELIMITERS (',', -1)).1

/-! ### utils.ts: splitLines -/

/-- The scanning loop of `splitLines`: a double quote toggles the quote
state and is kept; outside quotes a CR or LF terminates the current line
(a CRLF pair is consumed as one terminator); every other character is
appended to the current line. -/
def splitLinesAux : Str → Bool → Str → List Str → List Str
  | [], _, current, lines =>
    if current = [] then lines else lines ++ [current]
  | '"' :: rest, inQuotes, current, lines =>
    splitLinesAux rest (!inQuotes) (current ++ ['"']) lines
  | '\r' :: '\n' :: rest, false, current, lines =>
    splitLinesAux rest false [] (lines ++ [current])
  | '\r' :: rest, false, current, lines =>
    splitLinesAux rest false [] (lines ++ [current])
  | '\n' :: rest, false, current, lines =>
    splitLinesAux rest false [] (lines ++ [current])
  | c :: rest, inQuotes, current, lines =>
    splitLinesAux rest inQuotes (current ++ [c]) lines

/-- utils.ts `splitLines(csv)`. -/
def splitLines (csv : Str) : List Str :=
  splitLinesAux csv false [] []

/-! ### utils.ts: splitFields -/

/-- The scanning loop of `splitFields`.  Outside quotes: the delimiter
ends the current field; a double quote enters the quoted state only when
the current field buffer is empty; anything else is literal.  Inside
quotes: a doubled quote is un-escaped to one literal quote (advancing
two characters); a single quote leaves the quoted state; anything else
(line breaks included) is literal.  At end of input, `none` models the
`return null` for an unclosed quote in strict mode; otherwise the buffer
becomes the final field. -/
def splitFieldsAux (delim : Char) (relaxed : Bool) :
    Str → Bool → Str → List Str → Option (List Str)
  | [], inQuotes, current, fields =>
    if inQuotes ∧ relaxed = false then none else some (fields ++ [current])
  | '"' :: '"' :: rest, true, current, fields =>
    splitFieldsAux delim relaxed rest true (current ++ ['"']) fields
  | '"' :: rest, true, current, fields =>
    splitFieldsAux delim relaxed rest false current fields
  | c :: rest, true, current, fields =>
    splitFieldsAux delim relaxed rest true (current ++ [c]) fields
  | c :: rest, false, current, fields =>
    if c = delim then
      splitFieldsAux delim relaxed rest false [] (fields ++ [current])
    else if c = '"' ∧ current = [] then
      splitFieldsAux delim relaxed rest true current fields
    else splitFieldsAux delim relaxed rest false (current ++ [c]) fields

/-- utils.ts `splitFields(line, delimiter, relaxed)`. -/
def splitFields (line : Str) (delim : Char) (relaxed : Bool) :
    Option (List Str) :=
  splitFieldsAux delim relaxed line false [] []

/-! ### utils.ts: escapeField -/

/-- `value.replace(/"/g, String.fromCharCode(34, 34))`: double every
double quote. -/
def escQuotes : Str → Str
  | [] => []
  | c :: rest =>
    if c = '"' then '"' :: '"' :: escQuotes rest else c :: escQuotes rest

/-- Whether the first list is a leading segment of the second. -/
def strStartsWith : Str → Str → Bool
  | [], _ => true
  | _ :: _, [] => false
  | a :: as, b :: bs => a = b && strStartsWith as bs

/-- `value.includes(sub)`: substring containment. -/
def strHasSub (pat : Str) : Str → Bool
  | [] => strStartsWith pat []
  | c :: rest => strStartsWith pat (c :: rest) || strHasSub pat rest

/-- utils.ts `escapeField(value, delimiter)`: quote the value when it
contains the delimiter, a double quote, or a line break, doubling
internal quotes.  The delimiter is an arbitrary string, as in the
source. -/
def escapeField (value : Str) (delim : Str) : Str :=
  let needsQuoting :=
    strHasSub delim value || strHasSub ['"'] value ||
    strHasSub ['\n'] value || strHasSub ['\r'] value
  if needsQuoting = false then value
  else '"' :: escQuotes value ++ ['"']

/-! ### Decimal rendering of row and column indices

Models the JavaScript template-literal rendering of a number
(`row ...`, `_col...`): base-10 digits. -/

/-- One decimal digit. -/
def digitChar : Nat → Char
  | 0 => '0' | 1 => '1' | 2 => '2' | 3 => '3' | 4 => '4'
  | 5 => '5' | 6 => '6' | 7 => '7' | 8 => '8' | _ => '9'

/-- Fuel-indexed base-10 rendering (structural, so it reduces in the
kernel). -/
def natDecAux : Nat → Nat → Str
  | 0, _ => []
  | fuel + 1, n =>
    if n < 10 then [digitChar n]
    else natDecAux fuel (n / 10) ++ [digitChar (n % 10)]

/-- Decimal rendering of a natural number. -/
def natDec (n : Nat) : Str := natDecAux (n + 1) n

/-- Reads decimal digits back; left inverse of `natDec`. -/
def decVal (s : Str) : Nat :=
  s.foldl (fun a c => a * 10 + (c.toNat - 48)) 0

/-- The synthetic key for an extra column: `_col` followed by the
0-based field index. -/
def colKey (j : Nat) : Str := '_' :: 'c' :: 'o' :: 'l' :: natDec j

/-! ### Rows as JavaScript objects -/

/-- Property read `row[key]` on a JS object: the value at the first
matching key, if any. -/
def rowGet (r : Row) (k : Str) : Option Str :=
  (r.find? (fun p => decide (p.1 = k))).map Prod.snd

/-- generate.ts line 45: `raw == null ? "" : String(raw)` for
string-valued fields — an absent key reads as the empty string. -/
def jsGetStr (r : Row) (k : Str) : Str :=
  (rowGet r k).getD []

/-- Property write `row[key] = value` on a JS object: overwrite in place
if the key exists, otherwise append. -/
def jsSet (r : Row) (k v : Str) : Row :=
  if r.any (fun p => decide (p.1 = k)) then
    r.map (fun p => if p.1 = k then (k, v) else p)
  else r ++ [(k, v)]

/-- First-occurrence key list of an association list, modelling
`Object.keys` (a JS object never repeats a key). -/
def dedupF : List Str → List Str
  | [] => []
  | k :: ks => k :: (dedupF ks).filter (fun x => decide (x ≠ k))

/-- `Object.keys(row)`. -/
def rowKeys (r : Row) : List Str := dedupF (r.map Prod.fst)

/-! ### generate.ts -/

/-- JS `array.join(sep)`. -/
def joinD (sep : Str) : List Str → Str
  | [] => []
  | [x] => x
  | x :: y :: rest => x ++ sep ++ joinD sep (y :: rest)

/-- Options of `generate` (generate.ts).  `columns` is either an ordered
key list, or an ordered key-to-header mapping. -/
structure GenerateOptions where
  header : Bool := true
  delimiter : Str := [',']
  columns : Option (List Str ⊕ List (Str × Str)) := none
  newline : Str := ['\n']
  bom : Bool := false

/-- generate.ts `generate(data, options)`: resolve keys/headers from
`columns` or from the first row, emit an escaped header line when
requested and non-empty, then one escaped line per row, joined by the
newline, with an optional leading BOM. -/
def generate (data : List Row) (opts : GenerateOptions) : Str :=
  let keyHdr : List Str × List Str :=
    match opts.columns with
    | some (Sum.inl cols) => (cols, cols)
    | some (Sum.inr m) => (m.map Prod.fst, m.map Prod.snd)
    | none =>
      match data with
      | r :: _ => (rowKeys r, rowKeys r)
      | [] => ([], [])
  let keys := keyHdr.1
  let headers := keyHdr.2
  let headerLines :=
    if opts.header ∧ 0 < headers.length then
      [joinD opts.delimiter (headers.map (fun h => escapeField h opts.delimiter))]
    else []
  let dataLines := data.map (fun row =>
    joinD opts.delimiter
      (keys.map (fun k => escapeField (jsGetStr row k) opts.delimiter)))
  let result := joinD opts.newline (headerLines ++ dataLines)
  if opts.bom then '﻿' :: result else result

/-! ### parse.ts -/

/-- The two error values a decode can throw (the type check for
non-string input is outside the embedding, which is typed). -/
inductive ParseErr where
  | unclosedQuote (row : Nat)
  | columnMismatch (row actual expected : Nat)
deriving DecidableEq

/-- The exact message attached to each thrown `Error`. -/
def ParseErr.message : ParseErr → Str
  | .unclosedQuote n => ("csv-kit: unclosed quote at row ").toList ++ natDec n
  | .columnMismatch n a e =>
    ("csv-kit: row ").toList ++ natDec n ++ (" has ").toList ++ natDec a ++
    (" fields, expected ").toList ++ natDec e

/-- The overloaded return shape of `parse`: header-keyed rows, or
positional field sequences. -/
inductive ParseOut where
  | rows (rs : List Row)
  | grid (g : List (List Str))
deriving DecidableEq

/-- Options of `parse` (parse.ts).  `delimiter = none` models `"auto"`;
single-character delimiters (the only ones `splitFields` can match). -/
structure ParseOptions where
  header : Bool := true
  delimiter : Option Char := none
  skipEmptyLines : Bool := true
  trim : Bool := true
  transformHeader : Option (Str → Nat → Str) := none
  relaxed : Bool := false

/-- JS `array.map((x, i) => ...)` with the running index. -/
def mapWithIdx (f : Nat → α → β) : Nat → List α → List β
  | _, [] => []
  | i, a :: as => f i a :: mapWithIdx f (i + 1) as

/-- parse.ts lines 89-103: assemble one header-keyed row.  First every
header key is assigned (missing fields read as the empty string), then
in relaxed mode every extra field is assigned under its synthetic
`_col` key. -/
def buildRowMain (doTrim : Bool) : List Str → List Str → Row → Row
  | [], _, r => r
  | h :: hs, fs, r =>
    buildRowMain doTrim hs fs.tail (jsSet r h (applyTrim doTrim (fs.headD [])))

/-- The `for (let j = headers.length; j < fields.length; j++)` loop:
called on `fields.drop headers.length` with `j` starting at
`headers.length`. -/
def buildRowExtraLoop (doTrim : Bool) : List Str → Nat → Row → Row
  | [], _, r => r
  | f :: fs, j, r =>
    buildRowExtraLoop doTrim fs (j + 1) (jsSet r (colKey j) (applyTrim doTrim f))

/-- One assembled row of `parseWithHeader`. -/
def buildRow (headers fields : List Str) (doTrim relaxed : Bool) : Row :=
  let base := buildRowMain doTrim headers fields []
  if relaxed = true ∧ headers.length < fields.length then
    buildRowExtraLoop doTrim (fields.drop headers.length) headers.length base
  else base

/-- parse.ts lines 75-106: the data-line loop of `parseWithHeader`.
`i` is the index of the current line in the full line list (the header
is line 0), so thrown row numbers are `i + 1`. -/
def rowsLoop (headers : List Str) (d : Char) (doTrim relaxed : Bool) :
    Nat → List Str → Except ParseErr (List Row)
  | _, [] => .ok []
  | i, line :: rest =>
    match splitFields line d relaxed with
    | none => .error (.unclosedQuote (i + 1))
    | some fields =>
      if relaxed = false ∧ fields.length ≠ headers.length then
        .error (.columnMismatch (i + 1) fields.length headers.length)
      else
        match rowsLoop headers d doTrim relaxed (i + 1) rest with
        | .error e => .error e
        | .ok rows => .ok (buildRow headers fields doTrim relaxed :: rows)

/-- parse.ts lines 119-132: the line loop of `parseWithoutHeader`. -/
def gridLoop (d : Char) (doTrim relaxed : Bool) :
    Nat → List Str → Except ParseErr (List (List Str))
  | _, [] => .ok []
  | i, line :: rest =>
    match splitFields line d relaxed with
    | none => .error (.unclosedQuote (i + 1))
    | some fields =>
      match gridLoop d doTrim relaxed (i + 1) rest with
      | .error e => .error e
      | .ok rs => .ok ((if doTrim then fields.map trimJS else fields) :: rs)

/-- parse.ts lines 32-39: BOM strip, newline canonicalization, line
split, and the optional empty-line filter. -/
def prepLines (opts : ParseOptions) (csv : Str) : List Str :=
  let input := normalizeNewlines (stripBOM csv)
  let ls := splitLines input
  if opts.skipEmptyLines then ls.filter (fun l => 0 < l.length) else ls

/-- parse.ts `parse(csv, options)`. -/
def parse (csv : Str) (opts : ParseOptions) : Except ParseErr ParseOut :=
  let lines := prepLines opts csv
  if lines = [] then .ok (if opts.header then .rows [] else .grid [])
  else
    let d :=
      match opts.delimiter with
      | some d => d
      | none => detectDelimiter (lines.take 10)
    if opts.header then
      match splitFields (lines.headD []) d opts.relaxed with
      | none => .error (.unclosedQuote 1)
      | some headerFields =>
        let headers := mapWithIdx (fun i h =>
          let v := applyTrim opts.trim h
          match opts.transformHeader with
          | some f => f v i
          | none => v) 0 headerFields
        match rowsLoop headers d opts.trim opts.relaxed 1 lines.tail with
        | .error e => .error e
        | .ok rs => .ok (.rows rs)
    else
      match gridLoop d opts.trim opts.relaxed 0 lines with
      | .error e => .error e
      | .ok g => .ok (.grid g)

instance : DecidableEq (Except ParseErr ParseOut) := fun a b =>
  match a, b with
  | .ok x, .ok y =>
    if h : x = y then .isTrue (by rw [h])
    else .isFalse (by intro hc; cases hc; exact h rfl)
  | .error x, .error y =>
    if h : x = y then .isTrue (by rw [h])
    else .isFalse (by intro hc; cases hc; exact h rfl)
  | .ok _, .error _ => .isFalse (by intro hc; cases hc)
  | .error _, .ok _ => .isFalse (by intro hc; cases hc)

/-!
## Definitions modelled from the specification text

Each definition below follows the natural-language description in the
spec (not the source), so that the corresponding claims can be settled
as refinements: source definition = spec definition.
-/

/-- The two states of the spec's scanning automata. -/
inductive ScanState where
  | unquoted
  | quoted
deriving DecidableEq

/-- Quote toggle at line scope (spec section 4.2). -/
def ScanState.flip : ScanState → ScanState
  | .unquoted => .quoted
  | .quoted => .unquoted

/-- Modelled from the spec, section 4.1 (FieldSplitter): a single
left-to-right scan with states *unquoted* and *quoted*.  Unquoted: the
delimiter ends the current field and starts a new one; a double quote
switches to quoted only when the current field buffer is still empty;
anything else is appended literally.  Quoted: a doubled double quote is
un-escaped to one literal quote and the scan advances two characters; a
single double quote returns to unquoted; every other character is
appended.  At end of input the remaining buffer is always appended as
the final field; end of input in the quoted state fails in strict mode
and succeeds (partial field included) in relaxed mode. -/
def sfSpec (d : Char) (relaxed : Bool) : Str → ScanState → Str → Option (List Str)
  | [], st, buf =>
    if st = .quoted ∧ relaxed = false then none else some [buf]
  | c :: rest, .unquoted, buf =>
    if c = d then (sfSpec d relaxed rest .unquoted []).map (fun fs => buf :: fs)
    else if c = '"' ∧ buf = [] then sfSpec d relaxed rest .quoted buf
    else sfSpec d relaxed rest .unquoted (buf ++ [c])
  | '"' :: '"' :: rest, .quoted, buf => sfSpec d relaxed rest .quoted (buf ++ ['"'])
  | '"' :: rest, .quoted, buf => sfSpec d relaxed rest .unquoted buf
  | c :: rest, .quoted, buf => sfSpec d relaxed rest .quoted (buf ++ [c])

/-- Modelled from the spec, section 4.2 (LineSplitter): quote state
toggles on every double quote (line scope); a terminator outside quotes
closes the current line; a CRLF pair is one terminator; a terminator
inside quotes is literal content; at end of input no line is emitted
for trailing input of length zero. -/
def slSpec : Str → ScanState → Str → List Str
  | [], _, buf => if buf = [] then [] else [buf]
  | '"' :: rest, st, buf => slSpec rest st.flip (buf ++ ['"'])
  | '\r' :: '\n' :: rest, .unquoted, buf => buf :: slSpec rest .unquoted []
  | '\r' :: rest, .unquoted, buf => buf :: slSpec rest .unquoted []
  | '\n' :: rest, .unquoted, buf => buf :: slSpec rest .unquoted []
  | c :: rest, st, buf => slSpec rest st (buf ++ [c])

/-- Modelled from the spec, section 4.3 (DelimiterDetector), scoring:
count occurrences outside quoted regions per line; the candidate is
disqualified (`none`) when every line's count is zero; the typical
count is the value at the sorted midpoint of the non-zero counts; the
score is (lines whose count equals the typical count) times 1000 plus
(lines with a non-zero count). -/
def scoreSpec (lines : List Str) (d : Char) : Option Nat :=
  let counts := lines.map (fun l => countOutsideQuotes l d)
  let nz := counts.filter (fun n => n ≠ 0)
  if nz = [] then none
  else
    let typical := (sortAsc nz).getD (nz.length / 2) 0
    some ((counts.filter (fun n => n = typical)).length * 1000 + nz.length)

/-- Modelled from the spec, section 4.3 (DelimiterDetector), selection:
the returned candidate is the first, in the priority order of
`DELIMITERS`, whose score equals the highest score among the qualified
candidates; when every candidate is disqualified (which covers the
empty line list) the fallback is the comma. -/
def detectDelimiterSpec (lines : List Str) : Char :=
  let scores := DELIMITERS.filterMap (fun d => scoreSpec lines d)
  match scores with
  | [] => ','
  | s :: ss =>
    match DELIMITERS.find? (fun d => decide (scoreSpec lines d = some (ss.foldl max s))) with
    | some d => d
    | none => ','

/-- The number of delimiter occurrences that `splitFields` itself
consumes as field separators: a counter that follows the field
splitter's own quoting discipline (quote opens only on an empty buffer,
`bufEmpty` tracking whether the current field buffer is empty, doubled
quotes stay quoted).  This is the count that is one less than the
number of produced fields. -/
def splitScanCount (d : Char) : Str → Bool → Bool → Nat
  | [], _, _ => 0
  | '"' :: '"' :: rest, true, _ => splitScanCount d rest true false
  | '"' :: rest, true, bufEmpty => splitScanCount d rest false bufEmpty
  | _ :: rest, true, _ => splitScanCount d rest true false
  | c :: rest, false, bufEmpty =>
    if c = d then splitScanCount d rest false true + 1
    else if c = '"' ∧ bufEmpty = true then splitScanCount d rest true bufEmpty
    else splitScanCount d rest false false

/-- Whether an embedded call returned normally (`throw` is modelled by
`Except.error`). -/
def isOkE : Except ParseErr α → Bool
  | .ok _ => true
  | .error _ => false

/-- Key-value pairs assigned by the main header loop of
`parseWithHeader` (header keys in order, missing fields read as the
empty string). -/
def zipPad (doTrim : Bool) : List Str → List Str → Row
  | [], _ => []
  | h :: hs, fs => (h, applyTrim doTrim (fs.headD [])) :: zipPad doTrim hs fs.tail

/-- Key-value pairs assigned by the extra-column loop of
`parseWithHeader` in relaxed mode. -/
def extrasList (doTrim : Bool) : List Str → Nat → Row
  | [], _ => []
  | f :: fs, j => (colKey j, applyTrim doTrim f) :: extrasList doTrim fs (j + 1)

/-!
### Cleanliness predicates for the round trip

`CleanStr` and `CleanRows` isolate the row collections for which the
CSV encoding is representation-unambiguous: no delimiter, quote or
terminator characters, trim-stable strings, one fixed key list.
-/

def reservedChar (c : Char) : Bool :=
  c = ',' || c = ';' || c = '\t' || c = '|' || c = '"' || c = '\n' || c = '\r'

def CleanStr (s : Str) : Prop :=
  (∀ c ∈ s, reservedChar c = false) ∧ trimJS s = s

instance (s : Str) : Decidable (CleanStr s) := by
  unfold CleanStr
  exact instDecidableAnd

def CleanRows : List Row → Prop
  | [] => True
  | r0 :: rest =>
    (r0.map Prod.fst).Nodup ∧
    (∀ k ∈ r0.map Prod.fst, CleanStr k ∧ k ≠ []) ∧
    r0.map Prod.fst ≠ [] ∧
    ∀ r ∈ r0 :: rest, r.map Prod.fst = r0.map Prod.fst ∧
      ∀ p ∈ r, CleanStr p.2 ∧ ((r0.map Prod.fst).length = 1 → p.2 ≠ [])

instance : (rows : List Row) → Decidable (CleanRows rows)
  | [] => .isTrue trivial
  | r0 :: rest => by
    unfold CleanRows
    infer_instance

/-- The row number carried by a thrown error. -/
def ParseErr.rowNum : ParseErr → Nat
  | .unclosedQuote n => n
  | .columnMismatch n _ _ => n

/-- Physical 0-based index, in the unfiltered list, of the element that
`List.filter p` keeps at position `j`. -/
def keptIdx (p : α → Bool) : List α → Nat → Nat
  | [], j => j
  | a :: l, 0 => if p a then 0 else keptIdx p l 0 + 1
  | a :: l, j + 1 => if p a then keptIdx p l j + 1 else keptIdx p l (j + 1) + 1

/-!
## Helper lemmas: the scanners
-/

theorem stq_unq : (decide (ScanState.unquoted = ScanState.quoted)) = false := rfl

theorem stq_q : (decide (ScanState.quoted = ScanState.quoted)) = true := rfl

theorem flip_decide (st : ScanState) :
    (decide (st.flip = ScanState.quoted)) = !(decide (st = ScanState.quoted)) := by
  cases st <;> rfl

theorem state_of_decide_false {st : ScanState}
    (h : (decide (st = ScanState.quoted)) = false) : st = ScanState.unquoted := by
  cases st <;> simp_all

/-- The field-splitting loop agrees with the spec's two-state automaton,
up to the result accumulator. -/
theorem sf_equiv (d : Char) (r : Bool) :
    ∀ (input : Str) (st : ScanState) (buf : Str) (acc : List Str),
      splitFieldsAux d r input (st = .quoted) buf acc =
        (sfSpec d r input st buf).map (fun fs => acc ++ fs) := by
  intro input st buf acc
  induction input, st, buf using sfSpec.induct d r generalizing acc
  case case1 st buf h =>
    rw [sfSpec.eq_1, if_pos h, splitFieldsAux.eq_1, if_pos (by simp [h.1, h.2])]
    rfl
  case case2 st buf h =>
    rw [sfSpec.eq_1, if_neg h, splitFieldsAux.eq_1, if_neg (by
      intro hc
      exact h ⟨by cases st <;> simp_all, hc.2⟩)]
    rfl
  case case3 rest buf ih =>
    simp only [stq_unq, stq_q, decide_True, decide_False] at ih ⊢
    rw [splitFieldsAux.eq_5, if_pos rfl, sfSpec.eq_2, if_pos rfl, ih,
        Option.map_map]
    cases sfSpec d r rest .unquoted [] <;> simp
  case case4 c rest buf hcd hq ih =>
    simp only [stq_unq, stq_q, decide_True, decide_False] at ih ⊢
    rw [splitFieldsAux.eq_5, if_neg hcd, if_pos hq, sfSpec.eq_2, if_neg hcd,
        if_pos hq]
    exact ih acc
  case case5 c rest buf hcd hq ih =>
    simp only [stq_unq, stq_q, decide_True, decide_False] at ih ⊢
    rw [splitFieldsAux.eq_5, if_neg hcd, if_neg hq, sfSpec.eq_2, if_neg hcd,
        if_neg hq]
    exact ih acc
  case case6 rest buf ih =>
    simp only [stq_unq, stq_q, decide_True, decide_False] at ih ⊢
    rw [splitFieldsAux.eq_2, sfSpec.eq_3]
    exact ih acc
  case case7 rest buf hne ih =>
    simp only [stq_unq, stq_q, decide_True, decide_False] at ih ⊢
    rw [splitFieldsAux.eq_3 _ _ _ _ _ hne, sfSpec.eq_4 _ _ _ _ hne]
    exact ih acc
  case case8 c rest buf h1 h2 ih =>
    simp only [stq_unq, stq_q, decide_True, decide_False] at ih ⊢
    rw [splitFieldsAux.eq_4 _ _ _ _ _ _ h1 h2, sfSpec.eq_5 _ _ _ _ _ h1 h2]
    exact ih acc

/-- The line-splitting loop agrees with the spec's two-state automaton,
up to the line accumulator. -/
theorem sl_equiv :
    ∀ (input : Str) (st : ScanState) (buf : Str) (lines : List Str),
      splitLinesAux input (st = .quoted) buf lines =
        lines ++ slSpec input st buf := by
  intro input st buf lines
  induction input, st, buf using slSpec.induct generalizing lines
  case case1 st =>
    rw [splitLinesAux.eq_1, slSpec.eq_1]
    simp
  case case2 st buf h =>
    rw [splitLinesAux.eq_1, slSpec.eq_1, if_neg h, if_neg h]
  case case3 rest st buf ih =>
    rw [splitLinesAux.eq_2, slSpec.eq_2, ← flip_decide]
    exact ih lines
  case case4 rest buf ih =>
    simp only [stq_unq, decide_True, decide_False] at ih ⊢
    rw [splitLinesAux.eq_3, slSpec.eq_3, ih, List.append_assoc]
    rfl
  case case5 rest buf hne ih =>
    simp only [stq_unq, decide_True, decide_False] at ih ⊢
    rw [splitLinesAux.eq_4 _ _ _ hne, slSpec.eq_4 _ _ hne, ih, List.append_assoc]
    rfl
  case case6 rest buf ih =>
    simp only [stq_unq, decide_True, decide_False] at ih ⊢
    rw [splitLinesAux.eq_5, slSpec.eq_5, ih, List.append_assoc]
    rfl
  case case7 c rest st buf h1 h2 h3 h4 ih =>
    rw [splitLinesAux.eq_6 _ _ _ _ _ h1
          (fun r1 hc hr hb => h2 r1 hc hr (state_of_decide_false hb))
          (fun hc hb => h3 hc (state_of_decide_false hb))
          (fun hc hb => h4 hc (state_of_decide_false hb)),
        slSpec.eq_6 _ _ _ _ h1 h2 h3 h4]
    exact ih lines

/-- In relaxed mode the field scan always succeeds, and the number of
produced fields is the accumulator plus one plus the number of
delimiters consumed as separators. -/
theorem sfA_relaxed_len (d : Char) :
    ∀ (input : Str) (q : Bool) (cur : Str) (acc : List Str),
      (splitFieldsAux d true input q cur acc).map List.length =
        some (acc.length + 1 + splitScanCount d input q (decide (cur = []))) := by
  intro input q cur acc
  induction input, q, cur, acc using splitFieldsAux.induct d true
  case case1 q cur acc h =>
    exact absurd h.2 (by decide)
  case case2 q cur acc h =>
    rw [splitFieldsAux.eq_1, if_neg h, splitScanCount.eq_1]
    simp
  case case3 rest cur acc ih =>
    rw [splitFieldsAux.eq_2, splitScanCount.eq_2, ih]
    simp
  case case4 rest cur acc hne ih =>
    rw [splitFieldsAux.eq_3 _ _ _ _ _ hne, splitScanCount.eq_3 _ _ _ hne, ih]
  case case5 c rest cur acc h1 h2 ih =>
    rw [splitFieldsAux.eq_4 _ _ _ _ _ _ h1 h2, splitScanCount.eq_4 _ _ _ _ h1 h2, ih]
    simp
  case case6 rest cur acc ih =>
    rw [splitFieldsAux.eq_5, if_pos rfl, splitScanCount.eq_5, if_pos rfl, ih]
    simp only [List.length_append, List.length_cons, List.length_nil, decide_True]
    congr 1
    omega
  case case7 c rest cur acc h1 h2 ih =>
    obtain ⟨hc, hb⟩ := h2
    subst hc hb
    rw [splitFieldsAux.eq_5, if_neg h1, if_pos ⟨rfl, rfl⟩,
        splitScanCount.eq_5, if_neg h1, if_pos ⟨rfl, by decide⟩, ih]
  case case8 c rest cur acc h1 h2 ih =>
    rw [splitFieldsAux.eq_5, if_neg h1, if_neg h2, splitScanCount.eq_5,
        if_neg h1, if_neg (by
          rintro ⟨hc, hb⟩
          exact h2 ⟨hc, by simpa using hb⟩), ih]
    simp

/-- On quote-free input the detector's toggle counter and the field
splitter's separator counter agree. -/
theorem countOutsideQuotes_eq_scan (d : Char) :
    ∀ (input : Str), (∀ c ∈ input, c ≠ '"') → ∀ (b : Bool),
      splitScanCount d input false b = countOutsideQuotesAux d input false := by
  intro input
  induction input with
  | nil => intro _ b; rfl
  | cons c rest ih =>
    intro h b
    have hc : c ≠ '"' := h c (List.mem_cons_self c rest)
    have hrest : ∀ x ∈ rest, x ≠ '"' := fun x hx => h x (List.mem_cons_of_mem c hx)
    rw [splitScanCount.eq_5, countOutsideQuotesAux.eq_2]
    by_cases hcd : c = d
    · rw [if_pos hcd, if_neg (by simp [hc]), if_pos (by simp [hcd]), ih hrest]
    · rw [if_neg hcd, if_neg (by simp [hc]), if_neg hc,
        if_neg (by simp [hcd]), ih hrest]

/-- The loop body's score agrees with the spec's score (cast to the
integers the loop compares with its initial `-1`). -/
theorem scoreOf_eq_spec (lines : List Str) (d : Char) :
    scoreOf lines d = (scoreSpec lines d).map Int.ofNat := by
  unfold scoreOf scoreSpec
  dsimp only
  have hfe : (lines.map (fun l => countOutsideQuotes l d)).filter (fun c => decide (0 < c)) =
      (lines.map (fun l => countOutsideQuotes l d)).filter (fun n => decide (n ≠ 0)) := by
    apply List.filter_congr
    intro a _
    simp [Nat.pos_iff_ne_zero]
  rw [hfe]
  by_cases h : (lines.map (fun l => countOutsideQuotes l d)).filter (fun n => decide (n ≠ 0)) = []
  · rw [if_pos (by rw [h]; rfl), if_pos h]
    rfl
  · rw [if_neg (fun hl => h (List.length_eq_zero.mp hl)), if_neg h]
    rfl

theorem bestFold_cons (f : Char → Option Int) (d : Char) (l : List Char)
    (init : Char × Int) :
    bestFold f (d :: l) init =
      bestFold f l (match f d with
        | none => init
        | some s => if init.2 < s then (d, s) else init) := rfl

/-- What the strict-improvement fold computes: either nothing qualified
above the initial score and the initial pair survives, or the result is
the first list element attaining the maximal score (strictly earlier
elements score strictly below it, later ones at most it). -/
theorem bestFold_cases (f : Char → Option Int) :
    ∀ (l : List Char) (c0 : Char) (b0 : Int),
      (bestFold f l (c0, b0) = (c0, b0) ∧
        ∀ d ∈ l, ∀ s, f d = some s → s ≤ b0) ∨
      (∃ l1 d l2, l = l1 ++ d :: l2 ∧
        f d = some (bestFold f l (c0, b0)).2 ∧
        (bestFold f l (c0, b0)).1 = d ∧
        b0 < (bestFold f l (c0, b0)).2 ∧
        (∀ e ∈ l1, ∀ s, f e = some s → s < (bestFold f l (c0, b0)).2) ∧
        (∀ e ∈ l2, ∀ s, f e = some s → s ≤ (bestFold f l (c0, b0)).2)) := by
  intro l
  induction l with
  | nil =>
    intro c0 b0
    left
    exact ⟨rfl, by simp⟩
  | cons d ds ih =>
    intro c0 b0
    rcases hfd : f d with _ | s
    · rw [bestFold_cons, hfd]
      rcases ih c0 b0 with ⟨he, hall⟩ | ⟨l1, d', l2, hsp, h2, h3, h4, h5, h6⟩
      · left
        refine ⟨he, ?_⟩
        intro e he' s hs
        rcases List.mem_cons.mp he' with rfl | hmem
        · rw [hfd] at hs; cases hs
        · exact hall e hmem s hs
      · right
        refine ⟨d :: l1, d', l2, by simp [hsp], h2, h3, h4, ?_, h6⟩
        intro e he' s hs
        rcases List.mem_cons.mp he' with rfl | hmem
        · rw [hfd] at hs; cases hs
        · exact h5 e hmem s hs
    · by_cases hlt : b0 < s
      · rw [bestFold_cons, hfd]
        simp only [hlt, if_pos]
        rcases ih d s with ⟨he, hall⟩ | ⟨l1, d', l2, hsp, h2, h3, h4, h5, h6⟩
        · right
          refine ⟨[], d, ds, rfl, ?_, ?_, ?_, by simp, ?_⟩
          · rw [he]; exact hfd
          · rw [he]
          · rw [he]; exact hlt
          · intro e hmem s' hs'
            rw [he]
            exact hall e hmem s' hs'
        · right
          refine ⟨d :: l1, d', l2, by simp [hsp], h2, h3, lt_trans hlt h4, ?_, h6⟩
          intro e he' s' hs'
          rcases List.mem_cons.mp he' with rfl | hmem
          · rw [hfd] at hs'
            cases hs'
            exact h4
          · exact h5 e hmem s' hs'
      · rw [bestFold_cons, hfd]
        simp only [if_neg hlt]
        rcases ih c0 b0 with ⟨he, hall⟩ | ⟨l1, d', l2, hsp, h2, h3, h4, h5, h6⟩
        · left
          refine ⟨he, ?_⟩
          intro e he' s' hs'
          rcases List.mem_cons.mp he' with rfl | hmem
          · rw [hfd] at hs'
            cases hs'
            exact le_of_not_lt hlt
          · exact hall e hmem s' hs'
        · right
          refine ⟨d :: l1, d', l2, by simp [hsp], h2, h3, h4, ?_, h6⟩
          intro e he' s' hs'
          rcases List.mem_cons.mp he' with rfl | hmem
          · rw [hfd] at hs'
            cases hs'
            exact lt_of_le_of_lt (le_of_not_lt hlt) h4
          · exact h5 e hmem s' hs'

theorem foldl_max_eq {m : Nat} :
    ∀ (ss : List Nat) (s : Nat), m ∈ s :: ss → (∀ x ∈ s :: ss, x ≤ m) →
      ss.foldl max s = m := by
  intro ss
  induction ss with
  | nil =>
    intro s hm _
    exact (List.mem_singleton.mp hm).symm
  | cons y ys ih =>
    intro s hm hb
    rw [List.foldl_cons]
    apply ih
    · rcases List.mem_cons.mp hm with rfl | hm2
      · have hy : y ≤ m := hb y (by simp)
        have : max m y = m := Nat.max_eq_left hy
        rw [this]
        exact List.mem_cons_self _ _
      · rcases List.mem_cons.mp hm2 with rfl | hm3
        · have hs : s ≤ m := hb s (by simp)
          have : max s m = m := Nat.max_eq_right hs
          rw [this]
          exact List.mem_cons_self _ _
        · exact List.mem_cons_of_mem _ hm3
    · intro x hx
      rcases List.mem_cons.mp hx with h | hx2
      · subst h
        exact Nat.max_le.mpr ⟨hb s (by simp), hb y (by simp)⟩
      · exact hb x (by simp [hx2])

theorem find?_first (p : Char → Bool) :
    ∀ (l1 : List Char) (d : Char) (l2 : List Char),
      (∀ e ∈ l1, p e = false) → p d = true →
      List.find? p (l1 ++ d :: l2) = some d := by
  intro l1
  induction l1 with
  | nil =>
    intro d l2 _ hd
    simpa using List.find?_cons_of_pos _ hd
  | cons a l1 ih =>
    intro d l2 hpre hd
    have ha : p a = false := hpre a (by simp)
    rw [List.cons_append, List.find?_cons_of_neg _ (by simp [ha])]
    exact ih d l2 (fun e he => hpre e (by simp [he])) hd

theorem sfA_relaxed_some (d : Char) (input : Str) (q : Bool) (cur : Str)
    (acc : List Str) : (splitFieldsAux d true input q cur acc).isSome = true := by
  have h := sfA_relaxed_len d input q cur acc
  rcases hh : splitFieldsAux d true input q cur acc with _ | fs
  · rw [hh] at h; cases h
  · rfl

theorem splitFields_relaxed_some (line : Str) (d : Char) :
    ∃ fs, splitFields line d true = some fs := by
  have h := sfA_relaxed_some d line false [] []
  rcases hh : splitFields line d true with _ | fs
  · unfold splitFields at hh
    rw [hh] at h
    cases h
  · exact ⟨fs, rfl⟩

theorem rowsLoop_relaxed_ok (headers : List Str) (d : Char) (doTrim : Bool) :
    ∀ (lines : List Str) (i : Nat),
      isOkE (rowsLoop headers d doTrim true i lines) = true := by
  intro lines
  induction lines with
  | nil => intro i; rfl
  | cons line rest ih =>
    intro i
    obtain ⟨fs, hh⟩ := splitFields_relaxed_some line d
    simp only [rowsLoop, hh]
    rw [if_neg (by simp)]
    rcases hr : rowsLoop headers d doTrim true (i + 1) rest with e | rs
    · have := ih (i + 1)
      rw [hr] at this
      cases this
    · rfl

theorem gridLoop_relaxed_ok (d : Char) (doTrim : Bool) :
    ∀ (lines : List Str) (i : Nat),
      isOkE (gridLoop d doTrim true i lines) = true := by
  intro lines
  induction lines with
  | nil => intro i; rfl
  | cons line rest ih =>
    intro i
    obtain ⟨fs, hh⟩ := splitFields_relaxed_some line d
    simp only [gridLoop, hh]
    rcases hr : gridLoop d doTrim true (i + 1) rest with e | rs
    · have := ih (i + 1)
      rw [hr] at this
      cases this
    · rfl

theorem parse_relaxed_ok (csv : Str) (opts : ParseOptions)
    (hrel : opts.relaxed = true) : isOkE (parse csv opts) = true := by
  unfold parse
  by_cases hl : prepLines opts csv = []
  · rw [if_pos hl]
    cases opts.header <;> rfl
  · rw [if_neg hl]
    dsimp only
    rw [hrel]
    cases hh : opts.header
    · rw [if_neg (by simp)]
      rcases hg : gridLoop (match opts.delimiter with
          | some d => d
          | none => detectDelimiter ((prepLines opts csv).take 10))
          opts.trim true 0 (prepLines opts csv) with e | g
      · have := gridLoop_relaxed_ok (match opts.delimiter with
          | some d => d
          | none => detectDelimiter ((prepLines opts csv).take 10))
          opts.trim (prepLines opts csv) 0
        rw [hg] at this
        cases this
      · rfl
    · rw [if_pos rfl]
      obtain ⟨hf, hsf⟩ := splitFields_relaxed_some ((prepLines opts csv).headD [])
        (match opts.delimiter with
          | some d => d
          | none => detectDelimiter ((prepLines opts csv).take 10))
      rw [hsf]
      dsimp only
      rcases hr : rowsLoop _ (match opts.delimiter with
          | some d => d
          | none => detectDelimiter ((prepLines opts csv).take 10))
          opts.trim true 1 (prepLines opts csv).tail with e | rs
      · have := rowsLoop_relaxed_ok (mapWithIdx
            (fun i h =>
              match opts.transformHeader with
              | some f => f (applyTrim opts.trim h) i
              | none => applyTrim opts.trim h) 0 hf)
          (match opts.delimiter with
          | some d => d
          | none => detectDelimiter ((prepLines opts csv).take 10))
          opts.trim (prepLines opts csv).tail 1
        rw [hr] at this
        cases this
      · rfl

theorem digitChar_toNat (n : Nat) (h : n < 10) : (digitChar n).toNat = 48 + n := by
  interval_cases n <;> rfl

theorem natDecAux_foldl (fuel : Nat) :
    ∀ n, n < fuel → ∀ a,
      List.foldl (fun a c => a * 10 + (c.toNat - 48)) a (natDecAux fuel n) =
        a * 10 ^ (natDecAux fuel n).length + n := by
  induction fuel with
  | zero => intro n h; omega
  | succ f ih =>
    intro n h a
    by_cases h10 : n < 10
    · rw [natDecAux, if_pos h10]
      simp [digitChar_toNat n h10]
    · rw [natDecAux, if_neg h10]
      have hdiv : n / 10 < f := by omega
      rw [List.foldl_append, ih (n / 10) hdiv a]
      simp only [List.foldl_cons, List.foldl_nil, List.length_append,
        List.length_cons, List.length_nil]
      rw [digitChar_toNat (n % 10) (by omega), pow_succ]
      have hmul : a * (10 ^ (natDecAux f (n / 10)).length * 10) =
          a * 10 ^ (natDecAux f (n / 10)).length * 10 := by ring
      rw [hmul]
      omega

theorem decVal_natDec (n : Nat) : decVal (natDec n) = n := by
  unfold decVal natDec
  rw [natDecAux_foldl (n + 1) n (by omega) 0]
  simp

theorem natDec_inj {m n : Nat} (h : natDec m = natDec n) : m = n := by
  have hm := decVal_natDec m
  rw [h, decVal_natDec] at hm
  exact hm.symm

theorem colKey_inj {m n : Nat} (h : colKey m = colKey n) : m = n := by
  unfold colKey at h
  injection h with _ h
  injection h with _ h
  injection h with _ h
  injection h with _ h
  exact natDec_inj h

theorem jsSet_fresh (r : Row) (k v : Str) (h : ∀ p ∈ r, p.1 ≠ k) :
    jsSet r k v = r ++ [(k, v)] := by
  unfold jsSet
  rw [if_neg]
  intro hc
  obtain ⟨p, hp, hd⟩ := List.any_eq_true.mp hc
  exact h p hp (of_decide_eq_true hd)

theorem rowGet_append_of_none (r1 r2 : Row) (k : Str)
    (h : ∀ p ∈ r1, p.1 ≠ k) :
    rowGet (r1 ++ r2) k = rowGet r2 k := by
  induction r1 with
  | nil => rfl
  | cons p r1 ih =>
    unfold rowGet
    rw [List.cons_append, List.find?_cons_of_neg _ (by
      simp only [decide_eq_true_eq]
      exact h p (by simp))]
    exact ih (fun q hq => h q (by simp [hq]))

theorem rowGet_append_of_some (r1 r2 : Row) (k : Str)
    (h : (rowGet r1 k).isSome = true) :
    rowGet (r1 ++ r2) k = rowGet r1 k := by
  induction r1 with
  | nil => cases h
  | cons p r1 ih =>
    by_cases hp : p.1 = k
    · unfold rowGet
      rw [List.cons_append, List.find?_cons_of_pos _ (by simp [hp]),
        List.find?_cons_of_pos _ (by simp [hp])]
    · unfold rowGet at h ⊢
      rw [List.find?_cons_of_neg _ (by simp [hp])] at h
      rw [List.cons_append, List.find?_cons_of_neg _ (by simp [hp]),
        List.find?_cons_of_neg _ (by simp [hp])]
      exact ih h

theorem zipPad_keys (doTrim : Bool) :
    ∀ (hs fs : List Str), (zipPad doTrim hs fs).map Prod.fst = hs := by
  intro hs
  induction hs with
  | nil => intro fs; rfl
  | cons h hs ih =>
    intro fs
    unfold zipPad
    simp [ih]

theorem buildRowMain_eq (doTrim : Bool) :
    ∀ (hs fs : List Str) (r : Row), (r.map Prod.fst ++ hs).Nodup →
      buildRowMain doTrim hs fs r = r ++ zipPad doTrim hs fs := by
  intro hs
  induction hs with
  | nil => intro fs r _; simp [buildRowMain, zipPad]
  | cons h hs ih =>
    intro fs r hnd
    have hfresh : ∀ p ∈ r, p.1 ≠ h := by
      intro p hp he
      have hdisj := (List.nodup_append.mp hnd).2.2
      have hmem : p.1 ∈ r.map Prod.fst := List.mem_map_of_mem Prod.fst hp
      rw [he] at hmem
      exact hdisj hmem (by simp)
    rw [buildRowMain, jsSet_fresh r h _ hfresh, ih fs.tail (r ++ [(h, applyTrim doTrim (fs.headD []))])
      (by
        simp only [List.map_append, List.map_cons, List.map_nil]
        have : r.map Prod.fst ++ [h] ++ hs = r.map Prod.fst ++ h :: hs := by
          simp
        rw [this]
        exact hnd)]
    simp [zipPad]

theorem rowGet_zipPad (doTrim : Bool) :
    ∀ (hs fs : List Str) (j : Nat) (k : Str), hs.Nodup → hs.get? j = some k →
      rowGet (zipPad doTrim hs fs) k = some (applyTrim doTrim (fs.getD j [])) := by
  intro hs
  induction hs with
  | nil => intro fs j k _ hk; cases hk
  | cons h hs ih =>
    intro fs j k hnd hk
    cases j with
    | zero =>
      rw [List.get?_cons_zero] at hk
      cases hk
      unfold zipPad rowGet
      rw [List.find?_cons_of_pos _ (by simp)]
      cases fs <;> rfl
    | succ j =>
      rw [List.get?_cons_succ] at hk
      have hmem : k ∈ hs := List.get?_mem hk
      have hne : h ≠ k := by
        intro he
        exact (List.nodup_cons.mp hnd).1 (he ▸ hmem)
      unfold zipPad rowGet
      rw [List.find?_cons_of_neg _ (by
        simp only [decide_eq_true_eq]
        exact fun hc => hne hc)]
      have := ih fs.tail j k (List.nodup_cons.mp hnd).2 hk
      unfold rowGet at this
      rw [this]
      congr 1
      cases fs with
      | nil => simp
      | cons f fs => simp

theorem extrasList_keys (doTrim : Bool) :
    ∀ (fs : List Str) (j : Nat) (k : Str),
      k ∈ (extrasList doTrim fs j).map Prod.fst → ∃ m, j ≤ m ∧ k = colKey m := by
  intro fs
  induction fs with
  | nil => intro j k hk; cases hk
  | cons f fs ih =>
    intro j k hk
    unfold extrasList at hk
    rcases (by simpa using hk :
        k = colKey j ∨ ∃ x, (k, x) ∈ extrasList doTrim fs (j + 1)) with h1 | ⟨x, h2⟩
    · exact ⟨j, le_refl j, h1⟩
    · obtain ⟨m, hm, he⟩ := ih (j + 1) k (List.mem_map_of_mem Prod.fst h2)
      exact ⟨m, by omega, he⟩

theorem buildRowExtraLoop_eq (doTrim : Bool) :
    ∀ (fs : List Str) (j : Nat) (r : Row),
      (∀ m, j ≤ m → colKey m ∉ r.map Prod.fst) →
      buildRowExtraLoop doTrim fs j r = r ++ extrasList doTrim fs j := by
  intro fs
  induction fs with
  | nil => intro j r _; simp [buildRowExtraLoop, extrasList]
  | cons f fs ih =>
    intro j r hfresh
    have hf : ∀ p ∈ r, p.1 ≠ colKey j := by
      intro p hp he
      exact hfresh j (le_refl j) (he ▸ List.mem_map_of_mem Prod.fst hp)
    rw [buildRowExtraLoop, jsSet_fresh r _ _ hf, ih (j + 1) _ (by
      intro m hm hmem
      simp only [List.map_append, List.map_cons, List.map_nil] at hmem
      rcases List.mem_append.mp hmem with h1 | h2
      · exact hfresh m (by omega) h1
      · have : colKey m = colKey j := by simpa using h2
        have := colKey_inj this
        omega)]
    simp [extrasList]

theorem rowGet_extrasList (doTrim : Bool) :
    ∀ (fs : List Str) (j m : Nat), m < fs.length →
      rowGet (extrasList doTrim fs j) (colKey (j + m)) =
        some (applyTrim doTrim (fs.getD m [])) := by
  intro fs
  induction fs with
  | nil => intro j m hm; cases hm
  | cons f fs ih =>
    intro j m hm
    cases m with
    | zero =>
      unfold extrasList rowGet
      rw [List.find?_cons_of_pos _ (by simp)]
      rfl
    | succ m =>
      unfold extrasList rowGet
      rw [List.find?_cons_of_neg _ (by
        simp only [decide_eq_true_eq]
        intro hc
        have := colKey_inj hc
        omega)]
      have := ih (j + 1) m (by simpa using hm)
      unfold rowGet at this
      rw [show j + (m + 1) = j + 1 + m from by omega, this]
      simp

theorem buildRow_header_lookup (headers fields : List Str) (doTrim : Bool)
    (j : Nat) (k : Str) (hnd : headers.Nodup)
    (hcol : ∀ m, colKey m ∉ headers) (hk : headers.get? j = some k) :
    rowGet (buildRow headers fields doTrim true) k =
      some (applyTrim doTrim (fields.getD j [])) := by
  have hbase : buildRowMain doTrim headers fields [] =
      zipPad doTrim headers fields := by
    have := buildRowMain_eq doTrim headers fields [] (by simpa using hnd)
    simpa using this
  have hkz : rowGet (zipPad doTrim headers fields) k =
      some (applyTrim doTrim (fields.getD j [])) :=
    rowGet_zipPad doTrim headers fields j k hnd hk
  unfold buildRow
  rw [hbase]
  by_cases hgt : headers.length < fields.length
  · rw [if_pos ⟨rfl, hgt⟩]
    rw [buildRowExtraLoop_eq doTrim _ _ _ (by
      intro m _ hmem
      rw [zipPad_keys] at hmem
      exact hcol m hmem)]
    rw [rowGet_append_of_some _ _ _ (by rw [hkz]; rfl)]
    exact hkz
  · rw [if_neg (by intro hc; exact hgt hc.2)]
    exact hkz

theorem buildRow_extra_lookup (headers fields : List Str) (doTrim : Bool)
    (j : Nat) (hnd : headers.Nodup) (hcol : ∀ m, colKey m ∉ headers)
    (hge : headers.length ≤ j) (hlt : j < fields.length) :
    rowGet (buildRow headers fields doTrim true) (colKey j) =
      some (applyTrim doTrim (fields.getD j [])) := by
  have hbase : buildRowMain doTrim headers fields [] =
      zipPad doTrim headers fields := by
    have := buildRowMain_eq doTrim headers fields [] (by simpa using hnd)
    simpa using this
  unfold buildRow
  rw [hbase, if_pos ⟨rfl, by omega⟩]
  rw [buildRowExtraLoop_eq doTrim _ _ _ (by
    intro m _ hmem
    rw [zipPad_keys] at hmem
    exact hcol m hmem)]
  rw [rowGet_append_of_none _ _ _ (by
    intro p hp he
    have hkmem : p.1 ∈ (zipPad doTrim headers fields).map Prod.fst :=
      List.mem_map_of_mem Prod.fst hp
    rw [zipPad_keys] at hkmem
    rw [he] at hkmem
    exact hcol j hkmem)]
  have := rowGet_extrasList doTrim (fields.drop headers.length)
    headers.length (j - headers.length) (by
      rw [List.length_drop]
      omega)
  rw [show headers.length + (j - headers.length) = j from by omega] at this
  rw [this]
  congr 1
  congr 1
  rw [List.getD_eq_getD_get?, List.getD_eq_getD_get?, List.get?_drop,
    show headers.length + (j - headers.length) = j from by omega]

theorem colKey_not_mem {hs : List Str} (h : ∀ s ∈ hs, s.headD ' ' ≠ '_') :
    ∀ m, colKey m ∉ hs := by
  intro m hm
  exact h (colKey m) hm rfl

theorem normalize_id : ∀ (s : Str), (∀ c ∈ s, c ≠ '\r') → normalizeNewlines s = s := by
  intro s
  induction s with
  | nil => intro _; rfl
  | cons c rest ih =>
    intro h
    have hc : c ≠ '\r' := h c (by simp)
    rw [normalizeNewlines.eq_4 c rest (fun _ hcr => absurd hcr hc) (fun hcr => hc hcr),
      ih (fun x hx => h x (by simp [hx]))]

theorem stripBOM_cons (c : Char) (s : Str) (h : c ≠ '﻿') :
    stripBOM (c :: s) = c :: s := by
  show (if c = '﻿' then s else c :: s) = c :: s
  rw [if_neg h]

/-- Leading clean (quote- and terminator-free) text is accumulated into
the current line. -/

theorem sl_clean_chunk :
    ∀ (s rest : Str) (cur : Str) (lines : List Str),
      (∀ c ∈ s, c ≠ '"' ∧ c ≠ '\n' ∧ c ≠ '\r') →
      splitLinesAux (s ++ rest) false cur lines =
        splitLinesAux rest false (cur ++ s) lines := by
  intro s
  induction s with
  | nil => intro rest cur lines _; simp
  | cons c s ih =>
    intro rest cur lines h
    obtain ⟨h1, h2, h3⟩ := h c (by simp)
    rw [List.cons_append,
      splitLinesAux.eq_6 _ _ _ _ _ (fun hq => h1 hq)
        (fun _ hcr _ _ => h3 hcr) (fun hcr _ => h3 hcr) (fun hcn _ => h2 hcn),
      ih rest (cur ++ [c]) lines (fun x hx => h x (by simp [hx]))]
    simp

/-- Inside quotes, quote-free text (line breaks included) is accumulated
into the current line, and the end of input emits the line when it is
non-empty. -/

theorem sl_quoted_tail :
    ∀ (s : Str) (cur : Str) (lines : List Str), (∀ c ∈ s, c ≠ '"') →
      splitLinesAux s true cur lines =
        if cur ++ s = [] then lines else lines ++ [cur ++ s] := by
  intro s
  induction s with
  | nil => intro cur lines _; simp [splitLinesAux.eq_1]
  | cons c s ih =>
    intro cur lines h
    have hc : c ≠ '"' := h c (by simp)
    rw [splitLinesAux.eq_6 _ _ _ _ _ (fun hq => hc hq)
        (fun _ _ _ hf => by cases hf) (fun _ hf => by cases hf) (fun _ hf => by cases hf),
      ih (cur ++ [c]) lines (fun x hx => h x (by simp [hx]))]
    simp

/-- Empty lines produced by consecutive terminators. -/

theorem sl_empties :
    ∀ (k : Nat) (rest : Str) (lines : List Str),
      splitLinesAux (List.replicate k '\n' ++ rest) false [] lines =
        splitLinesAux rest false [] (lines ++ List.replicate k []) := by
  intro k
  induction k with
  | zero => intro rest lines; simp
  | succ k ih =>
    intro rest lines
    rw [List.replicate_succ, List.cons_append, splitLinesAux.eq_5,
      ih rest (lines ++ [[]])]
    simp [List.replicate_succ]

/-- A quote-free line splits into fields without ever failing. -/

theorem sf_noquote_some (d : Char) (r : Bool) :
    ∀ (line : Str) (cur : Str) (acc : List Str), (∀ c ∈ line, c ≠ '"') →
      (splitFieldsAux d r line false cur acc).isSome = true := by
  intro line
  induction line with
  | nil => intro cur acc _; rfl
  | cons c rest ih =>
    intro cur acc h
    have hc : c ≠ '"' := h c (by simp)
    have hr : ∀ x ∈ rest, x ≠ '"' := fun x hx => h x (by simp [hx])
    rw [splitFieldsAux.eq_5]
    by_cases hcd : c = d
    · rw [if_pos hcd]; exact ih [] (acc ++ [cur]) hr
    · rw [if_neg hcd, if_neg (fun hx => hc hx.1)]; exact ih (cur ++ [c]) acc hr

/-- Inside quotes, quote-free text is accumulated; at end of input the
strict scan fails and the relaxed scan succeeds with the partial
field. -/

theorem sf_quoted_tail (d : Char) (r : Bool) :
    ∀ (s : Str) (cur : Str) (acc : List Str), (∀ c ∈ s, c ≠ '"') →
      splitFieldsAux d r s true cur acc =
        if r = false then none else some (acc ++ [cur ++ s]) := by
  intro s
  induction s with
  | nil =>
    intro cur acc _
    rw [splitFieldsAux.eq_1]
    by_cases hr : r = false
    · rw [if_pos (by simp [hr]), if_pos hr]
    · rw [if_neg (by simp [hr]), if_neg hr]
      simp
  | cons c s ih =>
    intro cur acc h
    have hc : c ≠ '"' := h c (by simp)
    rw [splitFieldsAux.eq_4 _ _ _ _ _ _ (fun _ hq _ => hc hq) (fun hq => hc hq),
      ih (cur ++ [c]) acc (fun x hx => h x (by simp [hx]))]
    simp

/-- The winning delimiter is either the initial comma or one of the
candidates; in particular it is never a double quote. -/

theorem bestFold_fst (f : Char → Option Int) :
    ∀ (l : List Char) (init : Char × Int),
      (bestFold f l init).1 = init.1 ∨ (bestFold f l init).1 ∈ l := by
  intro l
  induction l with
  | nil => intro init; left; rfl
  | cons d ds ih =>
    intro init
    rcases hfd : f d with _ | s
    · rw [bestFold_cons, hfd]
      dsimp only
      rcases ih init with h | h
      · left; exact h
      · right; simp [h]
    · rw [bestFold_cons, hfd]
      dsimp only
      by_cases hlt : init.2 < s
      · rw [if_pos hlt]
        rcases ih (d, s) with h | h
        · right; simp [h]
        · right; simp [h]
      · rw [if_neg hlt]
        rcases ih init with h | h
        · left; exact h
        · right; simp [h]

theorem detect_ne_quote (lines : List Str) : detectDelimiter lines ≠ '"' := by
  unfold detectDelimiter
  by_cases h : lines = []
  · rw [if_pos h]; decide
  · rw [if_neg h]
    rcases bestFold_fst (scoreOf lines) DELIMITERS (',', -1) with he | hm
    · rw [he]; decide
    · intro hq
      rw [hq] at hm
      exact absurd hm (by decide)

theorem mapWithIdx_length (f : Nat → α → β) :
    ∀ (l : List α) (i : Nat), (mapWithIdx f i l).length = l.length := by
  intro l
  induction l with
  | nil => intro i; rfl
  | cons a as ih => intro i; simp [mapWithIdx, ih]

theorem sl_final :
    ∀ (s cur : Str) (lines : List Str),
      (∀ c ∈ s, c ≠ '"' ∧ c ≠ '\n' ∧ c ≠ '\r') →
      splitLinesAux s false cur lines =
        if cur ++ s = [] then lines else lines ++ [cur ++ s] := by
  intro s cur lines h
  have hh := sl_clean_chunk s [] cur lines h
  rw [List.append_nil] at hh
  rw [hh, splitLinesAux.eq_1]

theorem filter_replicate_nil :
    ∀ (k : Nat), (List.replicate k ([] : Str)).filter (fun l => decide (0 < l.length)) = [] := by
  intro k
  induction k with
  | zero => rfl
  | succ k ih => rw [List.replicate_succ, List.filter_cons]; simp [ih]

theorem map_rows_eq (delim : Str) (ks : List Str) :
    ∀ (d1 d2 : List Row), d1.length = d2.length →
      (∀ i, i < d1.length → ∀ k ∈ ks,
        jsGetStr (d1.getD i []) k = jsGetStr (d2.getD i []) k) →
      d1.map (fun row => joinD delim (ks.map (fun k => escapeField (jsGetStr row k) delim))) =
      d2.map (fun row => joinD delim (ks.map (fun k => escapeField (jsGetStr row k) delim))) := by
  intro d1
  induction d1 with
  | nil =>
    intro d2 hlen _
    rw [List.length_nil] at hlen
    rw [(List.length_eq_zero.mp hlen.symm)]
  | cons r1 t1 ih =>
    intro d2 hlen hag
    rcases d2 with _ | ⟨r2, t2⟩
    · cases hlen
    · simp only [List.map_cons]
      have hhead : ks.map (fun k => escapeField (jsGetStr r1 k) delim) =
          ks.map (fun k => escapeField (jsGetStr r2 k) delim) := by
        apply List.map_congr_left
        intro k hk
        have := hag 0 (by simp) k hk
        simp only [List.getD_cons_zero] at this
        rw [this]
      rw [hhead, ih t2 (by simpa using hlen) (fun i hi k hk => by
        have := hag (i + 1) (by simpa using hi) k hk
        simpa using this)]

/-!
## Helper lemmas: the round trip
-/

theorem dropWhile_len_le (p : Char → Bool) :
    ∀ (l : Str), (l.dropWhile p).length ≤ l.length := by
  intro l
  induction l with
  | nil => exact le_refl 0
  | cons c rest ih =>
    by_cases h : p c = true
    · rw [List.dropWhile_cons_of_pos h]
      exact le_trans ih (by simp)
    · rw [List.dropWhile_cons_of_neg (by simpa using h)]

theorem trim_head {s : Str} {c : Char} {t : Str} (hs : trimJS s = s)
    (he : s = c :: t) : jsWhitespace c = false := by
  subst he
  by_cases h : jsWhitespace c = true
  · exfalso
    have hlen : (trimJS (c :: t)).length ≤ t.length := by
      unfold trimJS
      rw [List.dropWhile_cons_of_pos h]
      calc ((t.dropWhile jsWhitespace).reverse.dropWhile jsWhitespace).reverse.length
          = ((t.dropWhile jsWhitespace).reverse.dropWhile jsWhitespace).length := by
            rw [List.length_reverse]
        _ ≤ (t.dropWhile jsWhitespace).reverse.length := dropWhile_len_le _ _
        _ = (t.dropWhile jsWhitespace).length := by rw [List.length_reverse]
        _ ≤ t.length := dropWhile_len_le _ _
    rw [hs] at hlen
    simp at hlen
  · simpa using h

theorem strHasSub_single_of_not_mem {a : Char} :
    ∀ (s : Str), a ∉ s → strHasSub [a] s = false := by
  intro s
  induction s with
  | nil => intro _; rfl
  | cons c rest ih =>
    intro h
    have hac : a ≠ c := fun he => h (by simp [he])
    unfold strHasSub strStartsWith
    have h1 : (decide (a = c)) = false := by simp [hac]
    rw [h1, ih (fun hm => h (by simp [hm]))]
    rfl

theorem reserved_not_mem {v : Str} (hv : ∀ c ∈ v, reservedChar c = false)
    {a : Char} (ha : reservedChar a = true) : a ∉ v := by
  intro hm
  rw [hv a hm] at ha
  cases ha

theorem escapeField_clean {v : Str} (hv : ∀ c ∈ v, reservedChar c = false)
    {d : Char} (hd : reservedChar d = true) : escapeField v [d] = v := by
  unfold escapeField
  rw [strHasSub_single_of_not_mem v (reserved_not_mem hv hd),
    strHasSub_single_of_not_mem v (reserved_not_mem hv (by decide)),
    strHasSub_single_of_not_mem v (reserved_not_mem hv (by decide)),
    strHasSub_single_of_not_mem v (reserved_not_mem hv (by decide))]
  rfl

theorem jsGetStr_cons_self (k v : Str) (r : Row) :
    jsGetStr ((k, v) :: r) k = v := by
  unfold jsGetStr rowGet
  rw [List.find?_cons_of_pos _ (by simp)]
  rfl

theorem jsGetStr_cons_ne (k v q : Str) (r : Row) (h : q ≠ k) :
    jsGetStr ((k, v) :: r) q = jsGetStr r q := by
  unfold jsGetStr rowGet
  rw [List.find?_cons_of_neg _ (by simpa using fun he => h he.symm)]

theorem map_jsGetStr_eq_snd :
    ∀ (r : Row), (r.map Prod.fst).Nodup →
      (r.map Prod.fst).map (fun k => jsGetStr r k) = r.map Prod.snd := by
  intro r
  induction r with
  | nil => intro _; rfl
  | cons p r ih =>
    intro hnd
    rcases p with ⟨k, v⟩
    have hnd2 : (k :: r.map Prod.fst).Nodup := by simpa using hnd
    simp only [List.map_cons]
    rw [jsGetStr_cons_self]
    congr 1
    have hk : k ∉ r.map Prod.fst := (List.nodup_cons.mp hnd2).1
    calc (r.map Prod.fst).map (fun q => jsGetStr ((k, v) :: r) q)
        = (r.map Prod.fst).map (fun q => jsGetStr r q) := by
          apply List.map_congr_left
          intro q hq
          exact jsGetStr_cons_ne k v q r (fun he => hk (he ▸ hq))
      _ = r.map Prod.snd := ih (List.nodup_cons.mp hnd2).2

theorem dedupF_of_nodup : ∀ (l : List Str), l.Nodup → dedupF l = l := by
  intro l
  induction l with
  | nil => intro _; rfl
  | cons k ks ih =>
    intro hnd
    unfold dedupF
    rw [ih (List.nodup_cons.mp hnd).2, List.filter_eq_self.mpr]
    intro a ha
    simp only [decide_eq_true_eq]
    intro he
    exact (List.nodup_cons.mp hnd).1 (he ▸ ha)

theorem sf_chunk (d : Char) (r : Bool) :
    ∀ (f rest cur : Str) (acc : List Str),
      (∀ c ∈ f, c ≠ d ∧ c ≠ '"') →
      splitFieldsAux d r (f ++ rest) false cur acc =
        splitFieldsAux d r rest false (cur ++ f) acc := by
  intro f
  induction f with
  | nil => intro rest cur acc _; simp
  | cons c f ih =>
    intro rest cur acc h
    obtain ⟨h1, h2⟩ := h c (by simp)
    rw [List.cons_append, splitFieldsAux.eq_5, if_neg h1,
      if_neg (fun hx => h2 hx.1), ih rest (cur ++ [c]) acc
        (fun x hx => h x (by simp [hx]))]
    simp

theorem sf_final (d : Char) (r : Bool) :
    ∀ (f cur : Str) (acc : List Str), (∀ c ∈ f, c ≠ d ∧ c ≠ '"') →
      splitFieldsAux d r f false cur acc = some (acc ++ [cur ++ f]) := by
  intro f cur acc h
  have hh := sf_chunk d r f [] cur acc h
  rw [List.append_nil] at hh
  rw [hh, splitFieldsAux.eq_1, if_neg (by simp)]

theorem splitFields_joinD (d : Char) (r : Bool) :
    ∀ (fs : List Str), fs ≠ [] → (∀ f ∈ fs, ∀ c ∈ f, c ≠ d ∧ c ≠ '"') →
      ∀ (acc : List Str),
        splitFieldsAux d r (joinD [d] fs) false [] acc = some (acc ++ fs) := by
  intro fs
  induction fs with
  | nil => intro h; cases h rfl
  | cons f fs ih =>
    intro _ hcl acc
    rcases fs with _ | ⟨f2, fs⟩
    · rw [joinD, sf_final d r f [] acc (hcl f (by simp))]
      simp
    · rw [joinD, List.append_assoc,
        sf_chunk d r f ([d] ++ joinD [d] (f2 :: fs)) [] acc (hcl f (by simp)),
        List.singleton_append, splitFieldsAux.eq_5, if_pos rfl,
        ih (by simp) (fun g hg => hcl g (by simp [hg])) (acc ++ [[] ++ f])]
      simp

theorem splitLines_joinD :
    ∀ (ls : List Str),
      (∀ l ∈ ls, l ≠ [] ∧ ∀ c ∈ l, c ≠ '"' ∧ c ≠ '\n' ∧ c ≠ '\r') →
      ∀ (acc : List Str),
        splitLinesAux (joinD ['\n'] ls) false [] acc = acc ++ ls := by
  intro ls
  induction ls with
  | nil => intro _ acc; simp [joinD, splitLinesAux.eq_1]
  | cons l ls ih =>
    intro hcl acc
    rcases ls with _ | ⟨l2, ls⟩
    · rw [joinD, sl_final l [] acc (hcl l (by simp)).2,
        if_neg (by simpa using (hcl l (by simp)).1)]
      simp
    · rw [joinD, List.append_assoc,
        sl_clean_chunk l (['\n'] ++ joinD ['\n'] (l2 :: ls)) [] acc
          (hcl l (by simp)).2,
        List.singleton_append, splitLinesAux.eq_5,
        ih (fun g hg => hcl g (by simp [hg])) (acc ++ [[] ++ l])]
      simp

theorem count_clean (d : Char) :
    ∀ (l : Str), (∀ c ∈ l, c ≠ '"') →
      countOutsideQuotesAux d l false = l.count d := by
  intro l
  induction l with
  | nil => intro _; rfl
  | cons c rest ih =>
    intro h
    have hc : c ≠ '"' := h c (by simp)
    have hr := ih (fun x hx => h x (by simp [hx]))
    rw [countOutsideQuotesAux.eq_2, if_neg hc, List.count_cons]
    by_cases hcd : c = d
    · rw [if_pos (by simp [hcd]), hr]
      simp [hcd]
    · rw [if_neg (by simp [hcd]), hr]
      simp [hcd, Ne.symm hcd]

theorem count_joinD (d : Char) :
    ∀ (fs : List Str), fs ≠ [] → (∀ f ∈ fs, d ∉ f) →
      (joinD [d] fs).count d = fs.length - 1 := by
  intro fs
  induction fs with
  | nil => intro h; cases h rfl
  | cons f fs ih =>
    intro _ hcl
    rcases fs with _ | ⟨f2, fs⟩
    · rw [joinD]
      simp [List.count_eq_zero.mpr (hcl f (by simp))]
    · rw [joinD, List.append_assoc, List.count_append, List.count_append,
        List.count_eq_zero.mpr (hcl f (by simp)),
        ih (by simp) (fun g hg => hcl g (by simp [hg]))]
      simp [Nat.add_comm]

theorem mem_joinD (sep : Str) :
    ∀ (ls : List Str) (c : Char), c ∈ joinD sep ls →
      c ∈ sep ∨ ∃ l ∈ ls, c ∈ l := by
  intro ls
  induction ls with
  | nil => intro c hc; cases hc
  | cons l ls ih =>
    intro c hc
    rcases ls with _ | ⟨l2, ls⟩
    · right; exact ⟨l, by simp, hc⟩
    · rw [joinD, List.append_assoc] at hc
      rcases List.mem_append.mp hc with h1 | h2
      · right; exact ⟨l, by simp, h1⟩
      · rcases List.mem_append.mp h2 with h3 | h4
        · left; exact h3
        · rcases ih c h4 with h5 | ⟨g, hg, hcg⟩
          · left; exact h5
          · right; exact ⟨g, by simp [hg], hcg⟩

theorem scoreOf_all_zero {lines : List Str} {d : Char}
    (h : ∀ l ∈ lines, countOutsideQuotes l d = 0) : scoreOf lines d = none := by
  unfold scoreOf
  dsimp only
  rw [if_pos]
  rw [List.length_eq_zero, List.filter_eq_nil_iff]
  intro a ha
  obtain ⟨l, hl, he⟩ := List.mem_map.mp ha
  simp [← he, h l hl]

theorem sortAsc_replicate (m : Nat) :
    ∀ (n : Nat), sortAsc (List.replicate n m) = List.replicate n m := by
  intro n
  induction n with
  | zero => rfl
  | succ n ih =>
    rw [List.replicate_succ]
    unfold sortAsc at ih ⊢
    rw [List.foldr_cons, ih]
    cases n with
    | zero => rfl
    | succ n =>
      rw [List.replicate_succ, insertSorted, if_pos (le_refl m), ← List.replicate_succ]

theorem getD_replicate (m : Nat) :
    ∀ (n i : Nat), i < n → (List.replicate n m).getD i 0 = m := by
  intro n
  induction n with
  | zero => intro i h; cases h
  | succ n ih =>
    intro i h
    rw [List.replicate_succ]
    cases i with
    | zero => rfl
    | succ i => simpa using ih i (by omega)

theorem scoreOf_const {lines : List Str} {d : Char} {m : Nat} (hm : 0 < m)
    (hne : lines ≠ []) (h : ∀ l ∈ lines, countOutsideQuotes l d = m) :
    scoreOf lines d = some ((lines.length * 1000 + lines.length : Nat) : Int) := by
  unfold scoreOf
  dsimp only
  have hcounts : lines.map (fun l => countOutsideQuotes l d) =
      List.replicate lines.length m := by
    apply List.eq_replicate_iff.mpr
    constructor
    · simp
    · intro b hb
      obtain ⟨l, hl, he⟩ := List.mem_map.mp hb
      rw [← he, h l hl]
  rw [hcounts, List.filter_eq_self.mpr (by
    intro a ha
    rw [List.eq_of_mem_replicate ha]
    simpa using hm)]
  rw [if_neg (by simpa [List.length_eq_zero] using hne)]
  rw [sortAsc_replicate, List.length_replicate,
    getD_replicate m lines.length (lines.length / 2) (by
      have : 0 < lines.length := List.length_pos.mpr hne
      omega),
    List.filter_eq_self.mpr (by
      intro a ha
      rw [List.eq_of_mem_replicate ha]
      simp),
    List.length_replicate]

theorem detect_comma {lines : List Str} {m : Nat} (hne : lines ≠ [])
    (hcomma : ∀ l ∈ lines, countOutsideQuotes l ',' = m)
    (hothers : ∀ l ∈ lines, countOutsideQuotes l ';' = 0 ∧
      countOutsideQuotes l '\t' = 0 ∧ countOutsideQuotes l '|' = 0) :
    detectDelimiter lines = ',' := by
  unfold detectDelimiter
  rw [if_neg hne]
  have h2 : scoreOf lines ';' = none := scoreOf_all_zero (fun l hl => (hothers l hl).1)
  have h3 : scoreOf lines '\t' = none := scoreOf_all_zero (fun l hl => (hothers l hl).2.1)
  have h4 : scoreOf lines '|' = none := scoreOf_all_zero (fun l hl => (hothers l hl).2.2)
  rcases Nat.eq_zero_or_pos m with hz | hm
  · have h1 : scoreOf lines ',' = none :=
      scoreOf_all_zero (fun l hl => by rw [hcomma l hl, hz])
    rw [show DELIMITERS = [',', ';', '\t', '|'] from rfl,
      bestFold_cons, h1]
    dsimp only
    rw [bestFold_cons, h2]
    dsimp only
    rw [bestFold_cons, h3]
    dsimp only
    rw [bestFold_cons, h4]
    rfl
  · have h1 := scoreOf_const hm hne hcomma
    rw [show DELIMITERS = [',', ';', '\t', '|'] from rfl,
      bestFold_cons, h1]
    dsimp only
    rw [if_pos (by omega)]
    rw [bestFold_cons, h2]
    dsimp only
    rw [bestFold_cons, h3]
    dsimp only
    rw [bestFold_cons, h4]
    rfl

theorem reserved_facts {c : Char} (h : reservedChar c = false) :
    c ≠ ',' ∧ c ≠ ';' ∧ c ≠ '\t' ∧ c ≠ '|' ∧ c ≠ '"' ∧ c ≠ '\n' ∧ c ≠ '\r' := by
  unfold reservedChar at h
  simp only [Bool.or_eq_false_iff, decide_eq_false_iff_not] at h
  exact ⟨h.1.1.1.1.1.1, h.1.1.1.1.1.2, h.1.1.1.1.2, h.1.1.1.2, h.1.1.2, h.1.2, h.2⟩

theorem mapWithIdx_const (g : α → β) :
    ∀ (l : List α) (i : Nat), mapWithIdx (fun _ a => g a) i l = l.map g := by
  intro l
  induction l with
  | nil => intro i; rfl
  | cons a as ih => intro i; rw [mapWithIdx, ih, List.map_cons]

theorem zipPad_reconstruct :
    ∀ (r : Row), (∀ p ∈ r, trimJS p.2 = p.2) →
      zipPad true (r.map Prod.fst) (r.map Prod.snd) = r := by
  intro r
  induction r with
  | nil => intro _; rfl
  | cons p r ih =>
    intro h
    rcases p with ⟨k, v⟩
    simp only [List.map_cons]
    rw [zipPad]
    simp only [List.headD_cons, List.tail_cons]
    rw [ih (fun q hq => h q (by simp [hq]))]
    have hv : applyTrim true v = v := by
      unfold applyTrim
      rw [if_pos rfl]
      exact h (k, v) (by simp)
    rw [hv]

theorem take10_cons (a : Str) (l : List Str) : (a :: l).take 10 = a :: l.take 9 := rfl

theorem rowsLoop_clean (ks : List Str) (hnd : ks.Nodup) (hkne : ks ≠ []) :
    ∀ (rows : List Row) (i : Nat),
      (∀ r ∈ rows, r.map Prod.fst = ks ∧
        ∀ p ∈ r, (∀ c ∈ p.2, reservedChar c = false) ∧ trimJS p.2 = p.2) →
      rowsLoop ks ',' true false i
        (rows.map (fun r => joinD [','] (r.map Prod.snd))) = .ok rows := by
  intro rows
  induction rows with
  | nil => intro i _; rfl
  | cons r rows ih =>
    intro i hcl
    obtain ⟨hfst, hvals⟩ := hcl r (by simp)
    have hrne : r ≠ [] := by
      intro he
      rw [he] at hfst
      exact hkne hfst.symm
    have hsome : splitFields (joinD [','] (r.map Prod.snd)) ',' false =
        some (r.map Prod.snd) := by
      unfold splitFields
      have := splitFields_joinD ',' false (r.map Prod.snd)
        (by simpa using hrne)
        (by
          intro f hf c hc
          obtain ⟨p, hp, he⟩ := List.mem_map.mp hf
          have := reserved_facts ((hvals p hp).1 c (he ▸ hc))
          exact ⟨this.1, this.2.2.2.2.1⟩) []
      simpa using this
    have hlen : (r.map Prod.snd).length = ks.length := by
      rw [List.length_map, ← hfst, List.length_map]
    rw [List.map_cons, rowsLoop, hsome]
    dsimp only
    rw [if_neg (fun hx => hx.2 hlen)]
    rw [ih (i + 1) (fun q hq => hcl q (by simp [hq]))]
    have hrow : buildRow ks (r.map Prod.snd) true false = r := by
      unfold buildRow
      rw [if_neg (by simp)]
      rw [buildRowMain_eq true ks (r.map Prod.snd) [] (by simpa using hnd)]
      rw [List.nil_append, ← hfst,
        zipPad_reconstruct r (fun p hp => (hvals p hp).2)]
    rw [hrow]

theorem jsGetStr_mem :
    ∀ (r : Row) (k : Str), k ∈ r.map Prod.fst → ∃ p ∈ r, jsGetStr r k = p.2 := by
  intro r
  induction r with
  | nil => intro k hk; cases hk
  | cons q r ih =>
    intro k hk
    by_cases hq : q.1 = k
    · refine ⟨q, by simp, ?_⟩
      unfold jsGetStr rowGet
      rw [List.find?_cons_of_pos _ (by simp [hq])]
      rfl
    · have hk2 : k ∈ r.map Prod.fst := by
        rcases (by simpa using hk : k = q.1 ∨ ∃ x, (k, x) ∈ r) with h1 | ⟨x, h2⟩
        · exact absurd h1.symm hq
        · exact List.mem_map_of_mem Prod.fst h2
      obtain ⟨p, hp, he⟩ := ih k hk2
      refine ⟨p, by simp [hp], ?_⟩
      rw [← he]
      unfold jsGetStr rowGet
      rw [List.find?_cons_of_neg _ (by simpa using hq)]

theorem generate_clean (r0 : Row) (rest : List Row)
    (hnd : (r0.map Prod.fst).Nodup)
    (hkne : r0.map Prod.fst ≠ [])
    (hkeys : ∀ k ∈ r0.map Prod.fst, CleanStr k ∧ k ≠ [])
    (hrows : ∀ r ∈ r0 :: rest, r.map Prod.fst = r0.map Prod.fst ∧
      ∀ p ∈ r, CleanStr p.2 ∧ ((r0.map Prod.fst).length = 1 → p.2 ≠ [])) :
    generate (r0 :: rest) {} =
      joinD ['\n'] (joinD [','] (r0.map Prod.fst) ::
        (r0 :: rest).map (fun r => joinD [','] (r.map Prod.snd))) := by
  unfold generate
  dsimp only
  rw [show rowKeys r0 = r0.map Prod.fst from by
    unfold rowKeys
    exact dedupF_of_nodup _ hnd]
  rw [if_neg (by decide : ¬ (false = true))]
  rw [if_pos ⟨rfl, by simpa [List.length_pos] using hkne⟩]
  have hhl : (r0.map Prod.fst).map (fun h => escapeField h [',']) =
      r0.map Prod.fst := by
    calc (r0.map Prod.fst).map (fun h => escapeField h [','])
        = (r0.map Prod.fst).map (fun h => h) := by
          apply List.map_congr_left
          intro k hk
          exact escapeField_clean (hkeys k hk).1.1 (by decide)
      _ = r0.map Prod.fst := List.map_id _
  rw [hhl]
  have hdl : (r0 :: rest).map (fun row =>
        joinD [','] ((r0.map Prod.fst).map (fun k => escapeField (jsGetStr row k) [',']))) =
      (r0 :: rest).map (fun r => joinD [','] (r.map Prod.snd)) := by
    apply List.map_congr_left
    intro r hr
    congr 1
    obtain ⟨hfst, hvals⟩ := hrows r hr
    have hndr : (r.map Prod.fst).Nodup := by rw [hfst]; exact hnd
    calc (r0.map Prod.fst).map (fun k => escapeField (jsGetStr r k) [','])
        = (r0.map Prod.fst).map (fun k => jsGetStr r k) := by
          apply List.map_congr_left
          intro k hk
          obtain ⟨p, hp, he⟩ := jsGetStr_mem r k (by rw [hfst]; exact hk)
          rw [he]
          exact escapeField_clean (hvals p hp).1.1 (by decide)
      _ = (r.map Prod.fst).map (fun k => jsGetStr r k) := by rw [hfst]
      _ = r.map Prod.snd := map_jsGetStr_eq_snd r hndr
  rw [hdl]
  rfl


theorem line_chars {fs : List Str}
    (h : ∀ f ∈ fs, ∀ c ∈ f, reservedChar c = false) :
    ∀ c ∈ joinD [','] fs, c ≠ '"' ∧ c ≠ '\n' ∧ c ≠ '\r' := by
  intro c hc
  rcases mem_joinD [','] fs c hc with h1 | ⟨f, hf, hcf⟩
  · rcases List.mem_singleton.mp h1 with rfl
    exact ⟨by decide, by decide, by decide⟩
  · have := reserved_facts (h f hf c hcf)
    exact ⟨this.2.2.2.2.1, this.2.2.2.2.2.1, this.2.2.2.2.2.2⟩

theorem joinD_cons_cons_ne (d : Char) (x y : Str) (l : List Str) :
    joinD [d] (x :: y :: l) ≠ [] := by
  rw [joinD]
  simp

theorem line_ne_nil {fs : List Str} (h1 : fs ≠ [])
    (h2 : ∀ f, fs = [f] → f ≠ []) : joinD [','] fs ≠ [] := by
  rcases fs with _ | ⟨f, fs⟩
  · cases h1 rfl
  · rcases fs with _ | ⟨f2, fs⟩
    · rw [joinD]
      exact h2 f rfl
    · exact joinD_cons_cons_ne ',' f f2 fs

theorem other_not_mem {fs : List Str}
    (h : ∀ f ∈ fs, ∀ c ∈ f, reservedChar c = false)
    {e : Char} (he : reservedChar e = true) (hc : e ≠ ',') :
    e ∉ joinD [','] fs := by
  intro hm
  rcases mem_joinD [','] fs e hm with h1 | ⟨f, hf, hcf⟩
  · exact hc (List.mem_singleton.mp h1)
  · rw [h f hf e hcf] at he
    cases he

theorem prep_clean (ls : List Str)
    (hfirst : stripBOM (joinD ['\n'] ls) = joinD ['\n'] ls)
    (hcl : ∀ l ∈ ls, l ≠ [] ∧ ∀ c ∈ l, c ≠ '"' ∧ c ≠ '\n' ∧ c ≠ '\r')
    (opts : ParseOptions) (hskip : opts.skipEmptyLines = true) :
    prepLines opts (joinD ['\n'] ls) = ls := by
  unfold prepLines
  dsimp only
  rw [hskip, if_pos rfl, hfirst, normalize_id _ (by
    intro c hc
    rcases mem_joinD ['\n'] ls c hc with h1 | ⟨l, hl, hcl2⟩
    · rcases List.mem_singleton.mp h1 with rfl
      decide
    · exact ((hcl l hl).2 c hcl2).2.2)]
  rw [show splitLines (joinD ['\n'] ls) = ls from by
    unfold splitLines
    have := splitLines_joinD ls hcl []
    simpa using this]
  rw [List.filter_eq_self.mpr]
  intro l hl
  simpa [List.length_pos] using (hcl l hl).1

theorem joinD_head (sep : Str) (c : Char) (xs : Str) (l : List Str) :
    ∃ t, joinD sep ((c :: xs) :: l) = c :: t := by
  rcases l with _ | ⟨y, l⟩
  · exact ⟨xs, rfl⟩
  · exact ⟨xs ++ sep ++ joinD sep (y :: l), by rw [joinD, List.cons_append, List.cons_append]⟩

theorem bom_free (c0 : Char) (k0t : Str) (ks2 : List Str) (ls : List Str)
    (hc0 : jsWhitespace c0 = false) :
    stripBOM (joinD ['\n'] (joinD [','] ((c0 :: k0t) :: ks2) :: ls)) =
      joinD ['\n'] (joinD [','] ((c0 :: k0t) :: ks2) :: ls) := by
  obtain ⟨t1, ht1⟩ := joinD_head [','] c0 k0t ks2
  rw [ht1]
  obtain ⟨t2, ht2⟩ := joinD_head ['\n'] c0 t1 ls
  rw [ht2]
  exact stripBOM_cons c0 t2 (by
    intro he
    rw [he] at hc0
    exact absurd hc0 (by decide))

theorem parse_clean_lines (ks : List Str) (rows : List Row)
    (hnd : ks.Nodup) (hkne : ks ≠ [])
    (hkcl : ∀ k ∈ ks, (∀ c ∈ k, reservedChar c = false) ∧ trimJS k = k ∧ k ≠ [])
    (hrows2 : ∀ r ∈ rows, r.map Prod.fst = ks ∧
      ∀ p ∈ r, (∀ c ∈ p.2, reservedChar c = false) ∧ trimJS p.2 = p.2 ∧
        (ks.length = 1 → p.2 ≠ [])) :
    parse (joinD ['\n']
      (joinD [','] ks :: rows.map (fun r => joinD [','] (r.map Prod.snd)))) {} =
      .ok (.rows rows) := by
  obtain ⟨k0, ks2, hk0⟩ : ∃ a b, ks = a :: b := by
    rcases hx : ks with _ | ⟨a, b⟩
    · cases hkne hx
    · exact ⟨a, b, rfl⟩
  obtain ⟨c0, k0t, hk0e⟩ : ∃ a b, k0 = a :: b := by
    rcases hy : k0 with _ | ⟨a, b⟩
    · exact absurd hy (hkcl k0 (by rw [hk0]; simp)).2.2
    · exact ⟨a, b, rfl⟩
  have hc0 : jsWhitespace c0 = false :=
    trim_head (hkcl k0 (by rw [hk0]; simp)).2.1 hk0e
  have hlines : ∀ l ∈ joinD [','] ks ::
      rows.map (fun r => joinD [','] (r.map Prod.snd)),
      ∃ fs, l = joinD [','] fs ∧ fs ≠ [] ∧ (∀ f, fs = [f] → f ≠ []) ∧
        fs.length = ks.length ∧ ∀ f ∈ fs, ∀ c ∈ f, reservedChar c = false := by
    intro l hl
    rcases List.mem_cons.mp hl with rfl | hl2
    · refine ⟨ks, rfl, hkne, ?_, rfl, fun f hf c hc => (hkcl f hf).1 c hc⟩
      intro f hf
      exact (hkcl f (by rw [hf]; simp)).2.2
    · obtain ⟨r, hr, he⟩ := List.mem_map.mp hl2
      obtain ⟨hfst, hvals⟩ := hrows2 r hr
      refine ⟨r.map Prod.snd, he.symm, ?_, ?_, ?_, ?_⟩
      · intro hnil
        have hrn : r = [] := by simpa using hnil
        rw [hrn] at hfst
        exact hkne hfst.symm
      · intro f hf
        rcases r with _ | ⟨p, r2⟩
        · simp at hf
        · rcases r2 with _ | ⟨q, r3⟩
          · have hfp : p.2 = f := by simpa using hf
            have hk1 : ks.length = 1 := by
              rw [← hfst]
              simp
            exact hfp ▸ (hvals p (by simp)).2.2 hk1
          · exfalso
            have := congrArg List.length hf
            simp at this
      · rw [List.length_map, ← hfst, List.length_map]
      · intro f hf c hc
        obtain ⟨p, hp, hpe⟩ := List.mem_map.mp hf
        exact (hvals p hp).1 c (hpe ▸ hc)
  have hlcl : ∀ l ∈ joinD [','] ks ::
      rows.map (fun r => joinD [','] (r.map Prod.snd)),
      l ≠ [] ∧ ∀ c ∈ l, c ≠ '"' ∧ c ≠ '\n' ∧ c ≠ '\r' := by
    intro l hl
    obtain ⟨fs, rfl, hne2, hsing, _, hcl⟩ := hlines l hl
    exact ⟨line_ne_nil hne2 hsing, line_chars hcl⟩
  have hcnt : ∀ l ∈ joinD [','] ks ::
      rows.map (fun r => joinD [','] (r.map Prod.snd)),
      countOutsideQuotes l ',' = ks.length - 1 := by
    intro l hl
    obtain ⟨fs, rfl, hne2, _, hlen, hcl⟩ := hlines l hl
    unfold countOutsideQuotes
    rw [count_clean ',' _ (fun c hc => (line_chars hcl c hc).1),
      count_joinD ',' fs hne2
        (fun f hf hm => absurd (hcl f hf ',' hm) (by decide)), hlen]
  have hoth : ∀ l ∈ joinD [','] ks ::
      rows.map (fun r => joinD [','] (r.map Prod.snd)),
      countOutsideQuotes l ';' = 0 ∧ countOutsideQuotes l '\t' = 0 ∧
        countOutsideQuotes l '|' = 0 := by
    intro l hl
    obtain ⟨fs, rfl, _, _, _, hcl⟩ := hlines l hl
    refine ⟨?_, ?_, ?_⟩ <;>
      · unfold countOutsideQuotes
        rw [count_clean _ _ (fun c hc => (line_chars hcl c hc).1)]
        exact List.count_eq_zero.mpr (other_not_mem hcl (by decide) (by decide))
  have hbom : stripBOM (joinD ['\n']
      (joinD [','] ks :: rows.map (fun r => joinD [','] (r.map Prod.snd)))) =
      joinD ['\n']
        (joinD [','] ks :: rows.map (fun r => joinD [','] (r.map Prod.snd))) := by
    rw [hk0, hk0e]
    exact bom_free c0 k0t ks2 _ hc0
  have hprep := prep_clean _ hbom hlcl {} rfl
  have hsub : ∀ l ∈ joinD [','] ks ::
      (rows.map (fun r => joinD [','] (r.map Prod.snd))).take 9,
      l ∈ joinD [','] ks :: rows.map (fun r => joinD [','] (r.map Prod.snd)) := by
    intro l hl
    rcases List.mem_cons.mp hl with rfl | h2
    · exact List.mem_cons_self _ _
    · exact List.mem_cons_of_mem _ (List.take_subset 9 _ h2)
  have hdet : detectDelimiter ((joinD [','] ks ::
      rows.map (fun r => joinD [','] (r.map Prod.snd))).take 10) = ',' := by
    rw [take10_cons]
    exact detect_comma (by simp) (fun l hl => hcnt l (hsub l hl))
      (fun l hl => hoth l (hsub l hl))
  have hhd : splitFields (joinD [','] ks) ',' false = some ks := by
    unfold splitFields
    have hj := splitFields_joinD ',' false ks hkne
      (fun f hf c hc => by
        have hrf := reserved_facts ((hkcl f hf).1 c hc)
        exact ⟨hrf.1, hrf.2.2.2.2.1⟩) []
    simpa using hj
  have hloop := rowsLoop_clean ks hnd hkne rows 1
    (fun r hr => ⟨(hrows2 r hr).1, fun p hp =>
      ⟨((hrows2 r hr).2 p hp).1, ((hrows2 r hr).2 p hp).2.1⟩⟩)
  have htrim : ks.map (applyTrim true) = ks := by
    calc ks.map (applyTrim true) = ks.map id := by
          apply List.map_congr_left
          intro k hk
          show applyTrim true k = k
          unfold applyTrim
          rw [if_pos rfl]
          exact (hkcl k hk).2.1
      _ = ks := List.map_id ks
  unfold parse
  rw [hprep]
  rw [if_neg (by simp), if_pos rfl]
  dsimp only [List.headD_cons, List.tail_cons]
  rw [hdet, hhd]
  dsimp only
  rw [mapWithIdx_const (applyTrim true) ks 0, htrim, hloop]

/-!
## Helper lemmas: error positions and relaxed row counts
-/

/-- A line whose strict field scan fails makes the strict row loop
throw: the unclosed-quote error itself, or an earlier error. -/
theorem rowsLoop_err (hs : List Str) (d : Char) (t : Bool) :
    ∀ (ls : List Str) (i : Nat), (∃ l ∈ ls, splitFields l d false = none) →
      ∃ e, rowsLoop hs d t false i ls = .error e := by
  intro ls
  induction ls with
  | nil =>
    intro i h
    obtain ⟨l, hl, _⟩ := h
    cases hl
  | cons a ls ih =>
    intro i h
    rcases hsa : splitFields a d false with _ | F
    · exact ⟨.unclosedQuote (i + 1), by rw [rowsLoop, hsa]⟩
    · have hta : ∃ l ∈ ls, splitFields l d false = none := by
        obtain ⟨l, hl, hn⟩ := h
        rcases List.mem_cons.mp hl with rfl | h2
        · rw [hsa] at hn
          cases hn
        · exact ⟨l, h2, hn⟩
      by_cases hlen : F.length ≠ hs.length
      · refine ⟨.columnMismatch (i + 1) F.length hs.length, ?_⟩
        rw [rowsLoop, hsa]
        dsimp only
        rw [if_pos ⟨rfl, hlen⟩]
      · obtain ⟨e, he⟩ := ih (i + 1) hta
        refine ⟨e, ?_⟩
        rw [rowsLoop, hsa]
        dsimp only
        rw [if_neg (fun hx => hlen hx.2), he]

/-- Strict parse with default options throws whenever some prepared
logical line has a failing strict field scan. -/
theorem parse_strict_err (doc : Str)
    (h : ∃ l ∈ prepLines ({} : ParseOptions) doc,
      splitFields l
        (detectDelimiter ((prepLines ({} : ParseOptions) doc).take 10)) false =
        none) :
    ∃ e, parse doc {} = .error e := by
  obtain ⟨l, hl, hsp⟩ := h
  obtain ⟨l0, rest, hlr⟩ : ∃ a b, prepLines ({} : ParseOptions) doc = a :: b := by
    rcases hx : prepLines ({} : ParseOptions) doc with _ | ⟨a, b⟩
    · rw [hx] at hl
      cases hl
    · exact ⟨a, b, rfl⟩
  rw [hlr] at hl hsp
  unfold parse
  rw [hlr, if_neg (by simp), if_pos rfl]
  dsimp only [List.headD_cons, List.tail_cons]
  rcases hh : splitFields l0 (detectDelimiter ((l0 :: rest).take 10)) false
    with _ | H
  · exact ⟨.unclosedQuote 1, rfl⟩
  · have hltail : ∃ x ∈ rest,
        splitFields x (detectDelimiter ((l0 :: rest).take 10)) false = none := by
      rcases List.mem_cons.mp hl with rfl | h2
      · rw [hh] at hsp
        cases hsp
      · exact ⟨l, h2, hsp⟩
    obtain ⟨e, he⟩ := rowsLoop_err
      (mapWithIdx (fun i h2 => applyTrim true h2) 0 H)
      (detectDelimiter ((l0 :: rest).take 10)) true rest 1 hltail
    refine ⟨e, ?_⟩
    dsimp only
    rw [he]

/-- The relaxed row loop succeeds with exactly one row per line. -/
theorem rowsLoop_relaxed_len (hs : List Str) (d : Char) (t : Bool) :
    ∀ (ls : List Str) (i : Nat),
      ∃ rs, rowsLoop hs d t true i ls = .ok rs ∧ rs.length = ls.length := by
  intro ls
  induction ls with
  | nil => intro i; exact ⟨[], rfl, rfl⟩
  | cons a ls ih =>
    intro i
    obtain ⟨F, hF⟩ := splitFields_relaxed_some a d
    obtain ⟨rs, hrs, hlen⟩ := ih (i + 1)
    refine ⟨buildRow hs F t true :: rs, ?_, by simp [hlen]⟩
    rw [rowsLoop, hF]
    dsimp only
    rw [if_neg (by simp), hrs]

/-- Relaxed parse with otherwise default options returns exactly one
row per prepared logical line after the header. -/
theorem parse_relaxed_rowcount (doc : Str)
    (hne : prepLines ({} : ParseOptions) doc ≠ []) :
    ∃ rs, parse doc { relaxed := true } = .ok (.rows rs) ∧
      rs.length + 1 = (prepLines ({} : ParseOptions) doc).length := by
  have hpre : prepLines ({ relaxed := true } : ParseOptions) doc =
      prepLines ({} : ParseOptions) doc := rfl
  obtain ⟨l0, rest, hlr⟩ : ∃ a b, prepLines ({} : ParseOptions) doc = a :: b := by
    rcases hx : prepLines ({} : ParseOptions) doc with _ | ⟨a, b⟩
    · cases hne hx
    · exact ⟨a, b, rfl⟩
  unfold parse
  rw [hpre, hlr, if_neg (by simp), if_pos rfl]
  dsimp only [List.headD_cons, List.tail_cons]
  obtain ⟨H, hH⟩ := splitFields_relaxed_some l0
    (detectDelimiter ((l0 :: rest).take 10))
  rw [hH]
  dsimp only
  obtain ⟨rs, hrs, hlen⟩ := rowsLoop_relaxed_len
    (mapWithIdx (fun i h2 => applyTrim true h2) 0 H)
    (detectDelimiter ((l0 :: rest).take 10)) true rest 1
  rw [hrs]
  exact ⟨rs, rfl, by simp [hlen]⟩

/-- The filtered position never exceeds the physical position. -/
theorem keptIdx_ge (p : α → Bool) :
    ∀ (ls : List α) (j : Nat), j ≤ keptIdx p ls j := by
  intro ls
  induction ls with
  | nil => intro j; exact le_refl j
  | cons a l ih =>
    intro j
    cases j with
    | zero =>
      rw [keptIdx]
      by_cases hp : p a = true
      · rw [if_pos hp]
      · rw [if_neg hp]
        exact Nat.zero_le _
    | succ j2 =>
      rw [keptIdx]
      by_cases hp : p a = true
      · rw [if_pos hp]
        exact Nat.succ_le_succ (ih j2)
      · rw [if_neg hp]
        have := ih (j2 + 1)
        omega

/-- The element the filter keeps at position `j` is the original list's
element at position `keptIdx p ls j`. -/
theorem keptIdx_getD (p : α → Bool) :
    ∀ (ls : List α) (j : Nat) (d : α), j < (ls.filter p).length →
      (ls.filter p).getD j d = ls.getD (keptIdx p ls j) d := by
  intro ls
  induction ls with
  | nil =>
    intro j d h
    simp at h
  | cons a l ih =>
    intro j d h
    cases j with
    | zero =>
      rw [keptIdx]
      by_cases hp : p a = true
      · rw [if_pos hp, List.filter_cons_of_pos hp]
        rfl
      · rw [if_neg hp, List.filter_cons_of_neg hp, List.getD_cons_succ]
        rw [List.filter_cons_of_neg hp] at h
        exact ih 0 d h
    | succ j2 =>
      rw [keptIdx]
      by_cases hp : p a = true
      · rw [if_pos hp, List.filter_cons_of_pos hp, List.getD_cons_succ,
          List.getD_cons_succ]
        rw [List.filter_cons_of_pos hp] at h
        exact ih j2 d (by simpa using h)
      · rw [if_neg hp, List.filter_cons_of_neg hp, List.getD_cons_succ]
        rw [List.filter_cons_of_neg hp] at h
        exact ih (j2 + 1) d h

/-- When a removed element precedes the kept one, the filtered position
is strictly smaller than the physical position. -/
theorem keptIdx_lt (p : α → Bool) :
    ∀ (ls : List α) (j : Nat), j < (ls.filter p).length →
      (∃ x ∈ ls.take (keptIdx p ls j), p x = false) → j < keptIdx p ls j := by
  intro ls
  induction ls with
  | nil =>
    intro j h _
    simp at h
  | cons a l ih =>
    intro j h hex
    cases j with
    | zero =>
      rw [keptIdx] at hex ⊢
      by_cases hp : p a = true
      · rw [if_pos hp] at hex ⊢
        obtain ⟨x, hx, _⟩ := hex
        simp at hx
      · rw [if_neg hp] at hex ⊢
        omega
    | succ j2 =>
      rw [keptIdx] at hex ⊢
      by_cases hp : p a = true
      · rw [if_pos hp] at hex ⊢
        have h2 : j2 < (l.filter p).length := by
          rw [List.filter_cons_of_pos hp] at h
          simpa using h
        have hex2 : ∃ x ∈ l.take (keptIdx p l j2), p x = false := by
          obtain ⟨x, hx, hpx⟩ := hex
          rcases List.mem_cons.mp (by simpa [List.take_succ_cons] using hx)
            with rfl | h3
          · rw [hp] at hpx
            cases hpx
          · exact ⟨x, h3, hpx⟩
        have := ih j2 h2 hex2
        omega
      · rw [if_neg hp] at hex ⊢
        have := keptIdx_ge p l (j2 + 1)
        omega

/-- Every error of the strict row loop carries a row number pointing,
1-based and counting the header line as row 1, at the input line whose
scan fails (unclosed quote) or whose field count is the reported actual
(column mismatch). -/
theorem rowsLoop_err_pos (hs : List Str) (d : Char) (t : Bool) :
    ∀ (ls : List Str) (i : Nat) (e : ParseErr),
      rowsLoop hs d t false i ls = .error e →
      i + 1 ≤ e.rowNum ∧ e.rowNum - (i + 1) < ls.length ∧
      (∀ n, e = .unclosedQuote n →
        splitFields (ls.getD (e.rowNum - (i + 1)) []) d false = none) ∧
      (∀ n a x, e = .columnMismatch n a x →
        ∃ F, splitFields (ls.getD (e.rowNum - (i + 1)) []) d false = some F ∧
          F.length = a) := by
  intro ls
  induction ls with
  | nil =>
    intro i e h
    rw [rowsLoop] at h
    exact Except.noConfusion h
  | cons a ls ih =>
    intro i e h
    rw [rowsLoop] at h
    rcases hsa : splitFields a d false with _ | F
    · rw [hsa] at h
      dsimp only at h
      injection h with he
      subst he
      refine ⟨le_refl _, ?_, ?_, ?_⟩
      · simp only [ParseErr.rowNum, Nat.sub_self, List.length_cons]
        omega
      · intro n _
        simpa [ParseErr.rowNum] using hsa
      · intro n a2 x hx
        cases hx
    · rw [hsa] at h
      dsimp only at h
      by_cases hlen : F.length ≠ hs.length
      · rw [if_pos ⟨rfl, hlen⟩] at h
        injection h with he
        subst he
        refine ⟨le_refl _, ?_, ?_, ?_⟩
        · simp only [ParseErr.rowNum, Nat.sub_self, List.length_cons]
          omega
        · intro n hn
          cases hn
        · intro n a2 x hx
          injection hx with h1 h2 h3
          refine ⟨F, ?_, h2⟩
          simpa [ParseErr.rowNum] using hsa
      · rw [if_neg (fun hx => hlen hx.2)] at h
        rcases hr : rowsLoop hs d t false (i + 1) ls with e2 | rs
        · rw [hr] at h
          dsimp only at h
          injection h with he
          subst he
          obtain ⟨h1, h2, h3, h4⟩ := ih (i + 1) e2 hr
          refine ⟨by omega, ?_, ?_, ?_⟩
          · simp only [List.length_cons]
            omega
          · intro n hn
            rw [show e2.rowNum - (i + 1) = (e2.rowNum - (i + 1 + 1)) + 1 from by
                omega,
              List.getD_cons_succ]
            exact h3 n hn
          · intro n a2 x hx
            rw [show e2.rowNum - (i + 1) = (e2.rowNum - (i + 1 + 1)) + 1 from by
                omega,
              List.getD_cons_succ]
            exact h4 n a2 x hx
        · rw [hr] at h
          dsimp only at h
          exact Except.noConfusion h

/-!
## Claim theorems
-/

/-- C1: for every input line, delimiter and relaxed flag, `splitFields`
performs exactly the spec's single left-to-right two-state scan
(`sfSpec`): unquoted delimiter ends the field, a quote opens quoting
only on an empty buffer, doubled quotes un-escape, a single quote
closes, the remaining buffer always becomes the final field (an empty
line gives one empty field), and an unterminated quote fails in strict
mode and succeeds with the partial field in relaxed mode. -/
theorem C1_splitFields_follows_spec_scan :
    (∀ (line : Str) (d : Char) (relaxed : Bool),
      splitFields line d relaxed = sfSpec d relaxed line .unquoted []) ∧
    (∀ (d : Char) (relaxed : Bool), splitFields [] d relaxed = some [[]]) := by
  constructor
  · intro line d relaxed
    have h := sf_equiv d relaxed line .unquoted [] []
    simp only [stq_unq] at h
    unfold splitFields
    rw [h]
    cases sfSpec d relaxed line .unquoted [] <;> simp
  · intro d relaxed
    rfl

/-- C8: for every document, `splitLines` is exactly the spec's
line-scope quote-toggling scan (`slSpec`): a terminator outside quotes
closes the line, a CRLF pair is one terminator, terminators inside
quotes are literal content, interior empty lines are preserved, and no
line is emitted for trailing input of length zero (the empty document
yields no lines). -/
theorem C8_splitLines_follows_spec_scan :
    (∀ (csv : Str), splitLines csv = slSpec csv .unquoted []) ∧
    splitLines [] = [] := by
  constructor
  · intro csv
    have h := sl_equiv csv .unquoted [] []
    simp only [stq_unq] at h
    unfold splitLines
    rw [h, List.nil_append]
  · rfl

/-- C6, counterexample: on the line `a"b,c"d` with delimiter `,` in
relaxed mode, `splitFields` produces two fields (the mid-field quotes
are literal text for the field splitter), while `countOutsideQuotes`
reports zero delimiters outside quotes (its state toggles on every
quote), so the claimed equation fields = count + 1 fails. -/
theorem C6_counterexample :
    ¬ ((splitFields ("a\"b,c\"d").toList ',' true).map List.length =
        some (countOutsideQuotes ("a\"b,c\"d").toList ',' + 1)) := by
  decide

/-- C6, amended: the number of fields produced by `splitFields` in
relaxed mode equals one plus the number of delimiter occurrences
consumed as separators under the field splitter's own quoting rule
(`splitScanCount`); the detector's toggle-based counter
`countOutsideQuotes` yields the same equation on every line that
contains no double quote, but may differ when a double quote occurs
after other characters in an unquoted field. -/
theorem C6_amended_field_count :
    (∀ (line : Str) (d : Char),
      (splitFields line d true).map List.length =
        some (splitScanCount d line false true + 1)) ∧
    (∀ (line : Str) (d : Char), (∀ c ∈ line, c ≠ '"') →
      (splitFields line d true).map List.length =
        some (countOutsideQuotes line d + 1)) := by
  constructor
  · intro line d
    unfold splitFields
    rw [sfA_relaxed_len d line false [] [],
      show (decide (([] : Str) = [])) = true from rfl]
    congr 1
    simp only [List.length_nil]
    omega
  · intro line d h
    unfold splitFields countOutsideQuotes
    rw [sfA_relaxed_len d line false [] [],
      show (decide (([] : Str) = [])) = true from rfl,
      ← countOutsideQuotes_eq_scan d line h true]
    congr 1
    simp only [List.length_nil]
    omega

/-- C6, witness: the amended equation evaluated on the quote-free line
`x,y`. -/
theorem C6_amended_witness :
    (splitFields ("x,y").toList ',' true).map List.length =
      some (countOutsideQuotes ("x,y").toList ',' + 1) :=
  C6_amended_field_count.2 ("x,y").toList ',' (by decide)

/-- C3: for every list of sample lines, `detectDelimiter` equals the
spec's description `detectDelimiterSpec`: candidates are scored in the
priority order `,` `;` tab `|` by quote-aware counts (disqualified when
every line's count is zero, typical count at the sorted midpoint of the
non-zero counts, score consistent*1000 + non-zero line count), the
winner is the earliest candidate attaining the strictly highest score,
and the comma is returned when the line list is empty or every
candidate is disqualified. -/
theorem C3_detectDelimiter_follows_spec (lines : List Str) :
    detectDelimiter lines = detectDelimiterSpec lines := by
  by_cases hnil : lines = []
  · subst hnil; rfl
  · rw [detectDelimiter, if_neg hnil]
    rcases bestFold_cases (scoreOf lines) DELIMITERS ',' (-1) with
      ⟨he, hall⟩ | ⟨l1, d, l2, hsp, h2, h3, h4, h5, h6⟩
    · have hnone : ∀ e ∈ DELIMITERS, scoreSpec lines e = none := by
        intro e hmem
        rcases hse : scoreSpec lines e with _ | n
        · rfl
        · have : scoreOf lines e = some ((n : Int)) := by
            rw [scoreOf_eq_spec, hse]; rfl
          have hle := hall e hmem _ this
          omega
      have hsc : DELIMITERS.filterMap (fun e => scoreSpec lines e) = [] :=
        List.filterMap_eq_nil_iff.mpr hnone
      rw [he]
      unfold detectDelimiterSpec
      rw [hsc]
    · rw [h3]
      set r2 := (bestFold (scoreOf lines) DELIMITERS (',', -1)).2 with hr2
      rw [scoreOf_eq_spec] at h2
      obtain ⟨n, hn, hcast⟩ : ∃ m : Nat, scoreSpec lines d = some m ∧ ((m : Int)) = r2 :=
        Option.map_eq_some'.mp h2
      have hdmem : d ∈ DELIMITERS := by rw [hsp]; simp
      have hnmem : n ∈ DELIMITERS.filterMap (fun e => scoreSpec lines e) :=
        List.mem_filterMap.mpr ⟨d, hdmem, hn⟩
      have hbound : ∀ x ∈ DELIMITERS.filterMap (fun e => scoreSpec lines e), x ≤ n := by
        intro x hx
        obtain ⟨e, hemem, hse⟩ := List.mem_filterMap.mp hx
        have hso : scoreOf lines e = some ((x : Int)) := by
          rw [scoreOf_eq_spec, hse]; rfl
        rw [hsp] at hemem
        rcases List.mem_append.mp hemem with hpre | hrest
        · have := h5 e hpre _ hso
          omega
        · rcases List.mem_cons.mp hrest with rfl | hpost
          · rw [hse] at hn
            cases hn
            exact le_refl _
          · have := h6 e hpost _ hso
            omega
      rcases hscores : DELIMITERS.filterMap (fun e => scoreSpec lines e) with _ | ⟨s, ss⟩
      · rw [hscores] at hnmem
        cases hnmem
      · rw [hscores] at hnmem hbound
        have hmax : ss.foldl max s = n := foldl_max_eq ss s hnmem hbound
        have hfind : DELIMITERS.find?
            (fun e => decide (scoreSpec lines e = some (ss.foldl max s))) = some d := by
          rw [hsp]
          apply find?_first
          · intro e hpre
            rcases hse : scoreSpec lines e with _ | x
            · simp [hse]
            · have hso : scoreOf lines e = some ((x : Int)) := by
                rw [scoreOf_eq_spec, hse]; rfl
              have hlt := h5 e hpre _ hso
              have : x ≠ n := by omega
              simp [hmax, this]
          · simp [hmax, hn]
        unfold detectDelimiterSpec
        rw [hscores]
        dsimp only
        rw [hfind]

/-- C5: for every document, parse with relaxed true never fails for
quoting or column-count reasons; in headered mode each data row is the
assembled record in which every header key at position j is bound to
field j (or the empty string when the row has fewer fields than
headers), and every extra field at 0-based position j beyond the header
count is kept under the synthetic key _col followed by j. -/
theorem C5_relaxed_best_effort :
    (∀ (csv : Str) (opts : ParseOptions), opts.relaxed = true →
      isOkE (parse csv opts) = true) ∧
    (∀ (headers fields : List Str) (doTrim : Bool) (j : Nat) (k : Str),
      headers.Nodup → (∀ m, colKey m ∉ headers) → headers.get? j = some k →
      rowGet (buildRow headers fields doTrim true) k =
        some (applyTrim doTrim (fields.getD j []))) ∧
    (∀ (headers fields : List Str) (doTrim : Bool) (j : Nat),
      headers.Nodup → (∀ m, colKey m ∉ headers) →
      headers.length ≤ j → j < fields.length →
      rowGet (buildRow headers fields doTrim true) (colKey j) =
        some (applyTrim doTrim (fields.getD j []))) :=
  ⟨parse_relaxed_ok,
   fun hs fs t j k h1 h2 h3 => buildRow_header_lookup hs fs t j k h1 h2 h3,
   fun hs fs t j h1 h2 h3 h4 => buildRow_extra_lookup hs fs t j h1 h2 h3 h4⟩

theorem C5_relaxed_best_effort_witness :
    isOkE (parse ("a,b,c\n1,2").toList { relaxed := true }) = true ∧
    rowGet (buildRow ["a".toList, "b".toList, "c".toList] ["1".toList] true true)
      ("c".toList) = some [] ∧
    rowGet (buildRow ["a".toList] ["1".toList, "2".toList] true true)
      (colKey 1) = some ("2").toList :=
  ⟨C5_relaxed_best_effort.1 ("a,b,c\n1,2").toList { relaxed := true } rfl,
   by
    have h := C5_relaxed_best_effort.2.1 ["a".toList, "b".toList, "c".toList] ["1".toList] true 2
      ("c".toList) (by decide) (colKey_not_mem (by decide)) (by decide)
    rw [h]
    decide,
   by
    have h := C5_relaxed_best_effort.2.2 ["a".toList] ["1".toList, "2".toList] true 1
      (by decide) (colKey_not_mem (by decide)) (by decide) (by decide)
    rw [h]
    decide⟩

/-- C7, counterexample: decoding a,b then 1,2,3 strictly does fail on
the first data line's column-count mismatch, but the thrown message is
prefixed with the library name, so it is not exactly
`row 2 has 3 fields, expected 2`. -/
theorem C7_counterexample :
    ∃ e : ParseErr, parse ("a,b\n1,2,3").toList {} = .error e ∧
      e.message ≠ ("row 2 has 3 fields, expected 2").toList :=
  ⟨.columnMismatch 2 3 2, by decide, by decide⟩

/-- C7, amended: in strict headered mode, when the first data line
splits into a field count different from the header count, parse fails
with exactly the message `csv-kit: row 2 has ... fields, expected ...`
(the spec's format preceded by the library-name prefix), the row number
2 counting the header as row 1. -/
theorem C7_amended (doc : Str) (h l : Str) (rest : List Str) (H F : List Str)
    (hl : prepLines {} doc = h :: l :: rest)
    (hH : splitFields h (detectDelimiter ((h :: l :: rest).take 10)) false = some H)
    (hF : splitFields l (detectDelimiter ((h :: l :: rest).take 10)) false = some F)
    (hne : F.length ≠ H.length) :
    parse doc {} = .error (.columnMismatch 2 F.length H.length) ∧
    (ParseErr.columnMismatch 2 F.length H.length).message =
      ("csv-kit: row 2 has ").toList ++ natDec F.length ++
        (" fields, expected ").toList ++ natDec H.length := by
  constructor
  · unfold parse
    rw [hl]
    rw [if_neg (by simp), if_pos rfl]
    dsimp only [List.headD_cons, List.tail_cons]
    rw [hH]
    dsimp only
    rw [rowsLoop]
    rw [hF]
    dsimp only
    rw [if_pos ⟨rfl, by rw [mapWithIdx_length]; exact hne⟩]
    rw [mapWithIdx_length]
  · rfl

/-- C7, witness: the amended statement evaluated on a,b then 1,2,3. -/
theorem C7_amended_witness :
    parse ("a,b\n1,2,3").toList {} = .error (.columnMismatch 2 3 2) ∧
    (ParseErr.columnMismatch 2 3 2).message =
      ("csv-kit: row 2 has 3 fields, expected 2").toList := by
  have h := C7_amended ("a,b\n1,2,3").toList ("a,b").toList ("1,2,3").toList []
    ["a".toList, "b".toList] ["1".toList, "2".toList, "3".toList]
    (by decide) (by decide) (by decide) (by decide)
  exact ⟨h.1, by decide⟩

/-- C4, amended: for every document containing an unclosed quote - some
prepared logical line whose strict field scan ends inside a quote -
parse with default (strict, headered) options throws (the unclosed-quote
error, or a column mismatch reached first), while parse with relaxed
true succeeds with exactly one row per prepared logical line after the
header: the unclosed quote swallows the rest of the document into the
final logical line, so the spec's scenario of a header followed by one
quote-opening data line yields exactly one row, but a document whose
unclosed quote starts on a later line yields one row per line, not one. -/
theorem C4_amended (doc : Str)
    (h : ∃ l ∈ prepLines ({} : ParseOptions) doc,
      splitFields l
        (detectDelimiter ((prepLines ({} : ParseOptions) doc).take 10)) false =
        none) :
    (∃ e, parse doc {} = .error e) ∧
    ∃ rs, parse doc { relaxed := true } = .ok (.rows rs) ∧
      rs.length + 1 = (prepLines ({} : ParseOptions) doc).length := by
  have hne : prepLines ({} : ParseOptions) doc ≠ [] := by
    obtain ⟨l, hl, _⟩ := h
    intro he
    rw [he] at hl
    cases hl
  exact ⟨parse_strict_err doc h, parse_relaxed_rowcount doc hne⟩

/-- C4, counterexample: the document a,b / 1,2 / "x contains a quote
that is opened and never closed (strict mode throws unclosed quote at
row 3), yet relaxed mode returns two rows, not exactly one: the claim's
universal form fails when the unclosed quote starts after the first
data line. -/
theorem C4_counterexample :
    parse ("a,b\n1,2\n\"x").toList {} = .error (.unclosedQuote 3) ∧
    parse ("a,b\n1,2\n\"x").toList { relaxed := true } =
      .ok (.rows [[("a".toList, "1".toList), ("b".toList, "2".toList)],
                  [("a".toList, "x".toList), ("b".toList, [])]]) := by
  constructor <;> decide


/-- C4, witness: the amended statement evaluated on the repo's own test
document a,b / "unclosed,value: strict mode throws, relaxed mode
returns rs with rs.length + 1 = 2, exactly one row. -/
theorem C4_amended_witness :
    (∃ e, parse ("a,b\n\"unclosed,value").toList {} = .error e) ∧
    ∃ rs, parse ("a,b\n\"unclosed,value").toList { relaxed := true } =
        .ok (.rows rs) ∧
      rs.length + 1 =
        (prepLines ({} : ParseOptions) ("a,b\n\"unclosed,value").toList).length :=
  C4_amended ("a,b\n\"unclosed,value").toList (by decide)


/-- C9: for every document on which parse with default options reports
an error, the reported row number is the 1-based position of the
offending line in the line sequence after empty-line filtering: the
filtered line at that position is the one whose strict field scan fails
(unclosed quote) or whose field count is the reported actual (column
mismatch); that line is the physical line at 0-based index
`keptIdx ... (rowNum - 1)` of the unfiltered logical-line sequence, the
reported position never exceeds the physical one, and it is strictly
smaller than the physical 1-based line number whenever an empty line
physically precedes the offending line. -/
theorem C9_rows_numbered_after_filter (doc : Str) (e : ParseErr)
    (h : parse doc {} = .error e) :
    1 ≤ e.rowNum ∧
    e.rowNum - 1 < (prepLines ({} : ParseOptions) doc).length ∧
    (∀ n, e = .unclosedQuote n →
      splitFields ((prepLines ({} : ParseOptions) doc).getD (e.rowNum - 1) [])
        (detectDelimiter ((prepLines ({} : ParseOptions) doc).take 10)) false =
        none) ∧
    (∀ n a x, e = .columnMismatch n a x →
      ∃ F, splitFields
          ((prepLines ({} : ParseOptions) doc).getD (e.rowNum - 1) [])
          (detectDelimiter ((prepLines ({} : ParseOptions) doc).take 10))
          false = some F ∧ F.length = a) ∧
    (prepLines ({} : ParseOptions) doc).getD (e.rowNum - 1) [] =
      (splitLines (normalizeNewlines (stripBOM doc))).getD
        (keptIdx (fun l => decide (0 < l.length))
          (splitLines (normalizeNewlines (stripBOM doc))) (e.rowNum - 1)) [] ∧
    e.rowNum - 1 ≤ keptIdx (fun l => decide (0 < l.length))
      (splitLines (normalizeNewlines (stripBOM doc))) (e.rowNum - 1) ∧
    ((∃ x ∈ (splitLines (normalizeNewlines (stripBOM doc))).take
        (keptIdx (fun l => decide (0 < l.length))
          (splitLines (normalizeNewlines (stripBOM doc))) (e.rowNum - 1)),
      x.length = 0) →
      e.rowNum < keptIdx (fun l => decide (0 < l.length))
        (splitLines (normalizeNewlines (stripBOM doc))) (e.rowNum - 1) + 1) := by
  have hne : prepLines ({} : ParseOptions) doc ≠ [] := by
    intro he
    unfold parse at h
    dsimp only at h
    rw [if_pos he] at h
    exact Except.noConfusion h
  obtain ⟨l0, rest, hlr⟩ : ∃ a b, prepLines ({} : ParseOptions) doc = a :: b := by
    rcases hx : prepLines ({} : ParseOptions) doc with _ | ⟨a, b⟩
    · cases hne hx
    · exact ⟨a, b, rfl⟩
  have hcore : 1 ≤ e.rowNum ∧ e.rowNum - 1 < (l0 :: rest).length ∧
      (∀ n, e = .unclosedQuote n →
        splitFields ((l0 :: rest).getD (e.rowNum - 1) [])
          (detectDelimiter ((l0 :: rest).take 10)) false = none) ∧
      (∀ n a x, e = .columnMismatch n a x →
        ∃ F, splitFields ((l0 :: rest).getD (e.rowNum - 1) [])
          (detectDelimiter ((l0 :: rest).take 10)) false = some F ∧
          F.length = a) := by
    unfold parse at h
    rw [hlr, if_neg (by simp), if_pos rfl] at h
    dsimp only [List.headD_cons, List.tail_cons] at h
    rcases hh : splitFields l0 (detectDelimiter ((l0 :: rest).take 10)) false
      with _ | H
    · rw [hh] at h
      dsimp only at h
      injection h with he2
      subst he2
      refine ⟨le_refl 1, by simp [ParseErr.rowNum], ?_, ?_⟩
      · intro n _
        simpa [ParseErr.rowNum] using hh
      · intro n a x hx
        cases hx
    · rw [hh] at h
      dsimp only at h
      rcases hr : rowsLoop (mapWithIdx (fun i h2 => applyTrim true h2) 0 H)
          (detectDelimiter ((l0 :: rest).take 10)) true false 1 rest
        with e2 | rs
      · rw [hr] at h
        dsimp only at h
        injection h with he2
        subst he2
        obtain ⟨h1, h2, h3, h4⟩ := rowsLoop_err_pos _ _ _ rest 1 e2 hr
        refine ⟨by omega, ?_, ?_, ?_⟩
        · simp only [List.length_cons]
          omega
        · intro n hn
          rw [show e2.rowNum - 1 = (e2.rowNum - (1 + 1)) + 1 from by omega,
            List.getD_cons_succ]
          exact h3 n hn
        · intro n a x hx
          rw [show e2.rowNum - 1 = (e2.rowNum - (1 + 1)) + 1 from by omega,
            List.getD_cons_succ]
          exact h4 n a x hx
      · rw [hr] at h
        dsimp only at h
        exact Except.noConfusion h
  obtain ⟨hn0, hn1, hu, hm⟩ := hcore
  have hn1f : e.rowNum - 1 < (prepLines ({} : ParseOptions) doc).length := by
    rw [hlr]
    exact hn1
  have hfil : prepLines ({} : ParseOptions) doc =
      (splitLines (normalizeNewlines (stripBOM doc))).filter
        (fun l => decide (0 < l.length)) := rfl
  refine ⟨hn0, hn1f, ?_, ?_, ?_, keptIdx_ge _ _ _, ?_⟩
  · intro n hn
    rw [hlr]
    exact hu n hn
  · intro n a x hx
    rw [hlr]
    exact hm n a x hx
  · rw [hfil]
    exact keptIdx_getD _ _ _ _ (by rw [← hfil]; exact hn1f)
  · intro hex
    obtain ⟨x, hx, hx0⟩ := hex
    have hlt := keptIdx_lt (fun l => decide (0 < l.length))
      (splitLines (normalizeNewlines (stripBOM doc))) (e.rowNum - 1)
      (by rw [← hfil]; exact hn1f) ⟨x, hx, by simp [hx0]⟩
    omega

/-- C9, witness: on the document a,b / empty line / 1,2,3 the error is
the column mismatch at reported row 2, while the offending line is the
third physical logical line: 2 < 2 + 1. -/
theorem C9_witness :
    (ParseErr.columnMismatch 2 3 2).rowNum <
      keptIdx (fun l => decide (0 < l.length))
        (splitLines (normalizeNewlines (stripBOM ("a,b\n\n1,2,3").toList)))
        ((ParseErr.columnMismatch 2 3 2).rowNum - 1) + 1 :=
  (C9_rows_numbered_after_filter ("a,b\n\n1,2,3").toList
    (.columnMismatch 2 3 2) (by decide)).2.2.2.2.2.2 (by decide)

/-- C10: with no columns setting, generate's output depends only on
each row's values at the keys of the first row: two data arrays of the
same length whose first rows have the same key list and whose rows
pairwise agree (as JS property reads coerced per the encoder) on the
values at those keys generate identical CSV text; values stored in
later rows under other keys never influence the output. -/
theorem C10_generate_reads_only_first_row_keys
    (data1 data2 : List Row) (opts : GenerateOptions) (hcols : opts.columns = none)
    (hlen : data1.length = data2.length)
    (hkeys : rowKeys (data1.headD []) = rowKeys (data2.headD []))
    (hagree : ∀ i, i < data1.length → ∀ k, k ∈ rowKeys (data1.headD []) →
      jsGetStr (data1.getD i []) k = jsGetStr (data2.getD i []) k) :
    generate data1 opts = generate data2 opts := by
  unfold generate
  rw [hcols]
  rcases data1 with _ | ⟨r1, t1⟩
  · rcases data2 with _ | ⟨r2, t2⟩
    · rfl
    · cases hlen
  · rcases data2 with _ | ⟨r2, t2⟩
    · cases hlen
    · simp only [List.headD_cons] at hkeys hagree
      dsimp only
      rw [hkeys]
      rw [map_rows_eq opts.delimiter (rowKeys r2) (r1 :: t1) (r2 :: t2) hlen
        (fun i hi k hk => hagree i hi k (hkeys ▸ hk))]

/-- C10, witness: a value stored in a later row under a key absent from
the first row does not appear in the output. -/
theorem C10_witness :
    generate [[("a".toList, "1".toList)],
              [("a".toList, "2".toList), ("z".toList, "9".toList)]] {} =
      generate [[("a".toList, "1".toList)], [("a".toList, "2".toList)]] {} :=
  C10_generate_reads_only_first_row_keys _ _ {} rfl (by decide) (by decide)
    (by decide)


/-- C2: round trip: for every row collection whose fields are all strings
and whose encoding introduces no representation ambiguity - formalised by
the decidable precondition `CleanRows`: the first row's keys are distinct,
non-empty, delimiter-, quote-, terminator- and trim-stable strings, every
row has exactly the first row's key list, and every value is likewise
clean (and non-empty when there is a single column, so that no line of
the encoding is empty) - decoding the encoded text returns the original
collection: `parse (generate rows {}) {} = .ok (.rows rows)` with default
options on both sides. -/
theorem C2_round_trip (rows : List Row) (h : CleanRows rows) :
    parse (generate rows {}) {} = .ok (.rows rows) := by
  rcases rows with _ | ⟨r0, rest⟩
  · rfl
  · unfold CleanRows at h
    obtain ⟨hnd, hkeys, hkne, hrows⟩ := h
    rw [generate_clean r0 rest hnd hkne hkeys hrows]
    exact parse_clean_lines (r0.map Prod.fst) (r0 :: rest) hnd hkne
      (fun k hk => ⟨(hkeys k hk).1.1, (hkeys k hk).1.2, (hkeys k hk).2⟩)
      (fun r hr => ⟨(hrows r hr).1, fun p hp =>
        ⟨((hrows r hr).2 p hp).1.1, ((hrows r hr).2 p hp).1.2,
         fun h1 => ((hrows r hr).2 p hp).2 h1⟩⟩)

/-- C2, witness: the round trip evaluated on the two-column collection
`[{a: 1, b: 2}]`, whose cleanliness precondition is checked by `decide`. -/
theorem C2_round_trip_witness :
    parse (generate [[("a".toList, "1".toList), ("b".toList, "2".toList)]] {}) {} =
      .ok (.rows [[("a".toList, "1".toList), ("b".toList, "2".toList)]]) :=
  C2_round_trip [[("a".toList, "1".toList), ("b".toList, "2".toList)]] (by decide)

end Csv
